import Mathlib

/-!
# Verification of the tile-cache / image-pyramid core (CCI-Tools/demo)

Shallow embedding of `src/backend/ccitbxws/cache.py`, `utils.py` and the parts
of `image.py` needed by the claims, together with proofs settling each claim.

Modelling conventions:

* Python machine state is passed explicitly.  The wall clock
  (`time.clock() - _T0`) is modelled as a natural-number counter that is
  incremented on every `Item.access()` call; distinct accesses receive
  strictly increasing times, which matches the intent of the float clock
  (ties in the float clock would only make eviction tie-breaks arbitrary).
* `Cache._max_size = capacity * threshold` is a Python float; we model the
  threshold as a rational number, so `max_size` is an exact rational.  All
  comparisons in the claims involve small dyadic values on which Python
  float arithmetic is exact.
* A cache together with its chain of `parent_cache`s is a `Chain K V n`:
  a non-recursive per-tier state (`CacheLocal`) for each tier, the head
  being the cache itself, the next element its parent, and so on.
* The cache store is modelled as a size function `K → V → ℕ`: `store_value`
  returns the value unchanged together with `sizeFn k v` (this is exactly
  `MemoryCacheStore` when `sizeFn = fun _ _ => 1`, and covers any store
  whose `restore_value` is the inverse of `store_value` on untransformed
  values); `discard_value` does nothing.
* Python truthiness of a value (`if value:` / `if item:`) is modelled by an
  explicit function `tr : V → Bool`.
* A Python exception escaping an operation (in particular the
  `AttributeError` raised in `Cache.get_value` when a parent cache returns a
  plain value that is then treated as a `Cache.Item`, see `get_value` below)
  is modelled as `Except.error ()`.  Claims about *completed* operation
  sequences are conditioned on an `Except.ok` result.
* `Cache._item_dict` and `Cache._item_list` are kept in sync by the source
  (`_add_item`/`_remove_item`), so both are modelled as the single list
  `CacheLocal.items` (in `_item_list` order; dict lookup = first match).
  The claims are settled from states reachable from empty caches, in which
  keys are unique, so first-match lookup and first-match erasure coincide
  with the dict behaviour.
-/

/-- An entry of a cache, mirroring `Cache.Item` of cache.py.  `creation_time`
is never written by `Item.store` in the source (only `__init__` sets it to 0),
so it stays 0; it is kept for fidelity. -/
structure Item (K V : Type) where
  key : K
  stored_value : V
  stored_size : ℕ
  creation_time : ℕ
  access_time : ℕ
  access_count : ℕ
  deriving Repr, DecidableEq

/-- Immutable configuration of one cache tier: the constructor arguments of
`Cache.__init__` (minus the parent, which is the tail of the `Chain`).
`policy` is the replacement-policy key function, `sizeFn` the store's size
measure. -/
structure Config (K V : Type) where
  capacity : ℕ
  threshold : ℚ
  policy : Item K V → ℤ
  sizeFn : K → V → ℕ

/-- `self._max_size = self._capacity * self._threshold`.  Written with
`mkRat` (rather than the irreducible `Rat.mul`) so that concrete instances
evaluate inside the kernel; `maxSize_eq` below gives the usual form. -/
def maxSize {K V : Type} (c : Config K V) : ℚ :=
  mkRat ((c.capacity : ℤ) * c.threshold.num) c.threshold.den

/-- Does the integer `z` strictly exceed the rational `q`?  Phrased on the
numerator and denominator so that it evaluates inside the kernel;
`intGtRat_iff` below gives the usual form. -/
def intGtRat (z : ℤ) (q : ℚ) : Bool := decide (q.num < z * (q.den : ℤ))

/-- Discard Least Recently Used items first (`POLICY_LRU`). -/
def POLICY_LRU {K V : Type} : Item K V → ℤ := fun item => (item.access_time : ℤ)

/-- Discard Most Recently Used items first (`POLICY_MRU`). -/
def POLICY_MRU {K V : Type} : Item K V → ℤ := fun item => -(item.access_time : ℤ)

/-- Discard Least Frequently Used items first (`POLICY_LFU`). -/
def POLICY_LFU {K V : Type} : Item K V → ℤ := fun item => (item.access_count : ℤ)

/-- Discard items by "Random Replacement" (`POLICY_RR`). -/
def POLICY_RR {K V : Type} : Item K V → ℤ := fun item => ((item.access_count % 2 : ℕ) : ℤ)

/-- The size measure of `MemoryCacheStore`: `store_value` returns `(value, 1)`. -/
def memoryCacheStoreSize {K V : Type} : K → V → ℕ := fun _ _ => 1

/-- The mutable state of one cache tier: `self._size` and
`self._item_list`/`self._item_dict` (as one list, see module docstring). -/
structure CacheLocal (K V : Type) where
  conf : Config K V
  size : ℤ
  items : List (Item K V)

/-- A cache with its chain of parents: the head is the cache itself, the tail
its `parent_cache` chain.  `Chain K V 0` is "no cache". -/
inductive Chain (K V : Type) : ℕ → Type where
  | nil : Chain K V 0
  | cons {n : ℕ} : CacheLocal K V → Chain K V n → Chain K V (n + 1)

namespace Chain

variable {K V : Type}

/-- The cache at the head of a non-empty chain. -/
def head : {n : ℕ} → Chain K V (n + 1) → CacheLocal K V
  | _, .cons c _ => c

/-- The parent chain of a non-empty chain. -/
def tail : {n : ℕ} → Chain K V (n + 1) → Chain K V n
  | _, .cons _ rest => rest

/-- The tiers of a chain as a list, head (the cache itself) first. -/
def toList : {n : ℕ} → Chain K V n → List (CacheLocal K V)
  | _, .nil => []
  | _, .cons c rest => c :: toList rest

end Chain

/-- `Item.access`: refresh the access time from the clock and bump the access
counter; returns the advanced clock. -/
def Item.access {K V : Type} (it : Item K V) (clock : ℕ) : Item K V × ℕ :=
  ({ it with access_time := clock, access_count := it.access_count + 1 }, clock + 1)

/-- `Item.store`: reset the counter, `access()`, then record the stored
representation and size delivered by the store.  With the identity-value
store this builds `⟨k, v, sizeFn k v, 0, clock, 1⟩` and advances the clock. -/
def mkStoredItem {K V : Type} (conf : Config K V) (k : K) (v : V) (clock : ℕ) :
    Item K V × ℕ :=
  Item.access
    { key := k, stored_value := v, stored_size := conf.sizeFn k v
      creation_time := 0, access_time := 0, access_count := 0 } clock

variable {K V : Type} [DecidableEq K]

/-- `self._item_dict.get(key)`: first item with the given key. -/
def findItem (k : K) (items : List (Item K V)) : Option (Item K V) :=
  items.find? (fun it => decide (it.key = k))

/-- `self._remove_item(item)` for the item found under `k`: drop the first
item with that key from the list. -/
def eraseItem (k : K) (items : List (Item K V)) : List (Item K V) :=
  items.eraseP (fun it => decide (it.key = k))

/-- The local part of `remove_value` / of the overwrite branch of `put_value`:
if the key is present, remove its item and subtract its stored size
(`item.discard` releases the stored value; the store model holds no state). -/
def removeLocal (c : CacheLocal K V) (k : K) : CacheLocal K V :=
  match findItem k c.items with
  | some it => { c with items := eraseItem k c.items, size := c.size - it.stored_size }
  | none => c

/-- `remove_value(key)`: remove the key from the parent chain and locally.
Removal never touches the clock (no `access()` is involved). -/
def remove_value : {n : ℕ} → Chain K V n → K → Chain K V n
  | _, .nil, _ => .nil
  | _, .cons c rest, k => .cons (removeLocal c k) (remove_value rest k)

/-- `item.restore`'s access bookkeeping on the local tier holding `k`:
refresh the found item's access time and counter.  The update is written as a
key-directed map; it touches exactly the found item when keys are unique. -/
def restoreHit (c : CacheLocal K V) (k : K) (clock : ℕ) : CacheLocal K V :=
  { c with items := c.items.map (fun j =>
      if j.key = k then
        { j with access_time := clock, access_count := j.access_count + 1 }
      else j) }

/-- `get_value(key)` of cache.py, on the whole parent chain.

If the key is locally resident: `item.restore` refreshes the access fields
and returns the stored value.  Otherwise, if a parent exists, the source runs
`item = self._parent_cache.get_value(key); if item: value = item.restore(...)`;
but `get_value` returns a plain *value*, not a `Cache.Item`, so if the parent
yields a truthy value the attribute access `item.restore` raises
(`AttributeError`, or `ValueError` for ndarray truthiness) — modelled as
`Except.error ()`.  A falsy parent value leaves `value = None`. -/
def get_value (tr : V → Bool) :
    {n : ℕ} → Chain K V n → K → ℕ → Except Unit (Option V × Chain K V n × ℕ)
  | _, .nil, _, clock => .ok (none, .nil, clock)
  | _, .cons c .nil, k, clock =>
    match findItem k c.items with
    | some it => .ok (some it.stored_value, .cons (restoreHit c k clock) .nil, clock + 1)
    | none => .ok (none, .cons c .nil, clock)
  | _, .cons c (.cons p prest), k, clock =>
    match findItem k c.items with
    | some it =>
      .ok (some it.stored_value, .cons (restoreHit c k clock) (.cons p prest), clock + 1)
    | none =>
      match get_value tr (.cons p prest) k clock with
      | .error e => .error e
      | .ok (none, rest', clock') => .ok (none, .cons c rest', clock')
      | .ok (some v, rest', clock') =>
        if tr v then .error () else .ok (none, .cons c rest', clock')

/-- The victim-selection loop of `trim`: sweep the (sorted) item list,
collecting keys and decrementing the projected size while
`size + extra_size > max_size`. -/
def selectVictims (max_size : ℚ) : ℤ → ℕ → List (Item K V) → List K
  | _, _, [] => []
  | size, extra, it :: rest =>
    if intGtRat (size + (extra : ℤ)) max_size then
      it.key :: selectVictims max_size (size - it.stored_size) extra rest
    else
      selectVictims max_size size extra rest

/-- `self._item_list.sort(key=self._policy)`: Python's sort is stable and
ascending, which insertion sort under the non-strict policy order realises. -/
def sortItems (c : CacheLocal K V) : CacheLocal K V :=
  { c with items := c.items.insertionSort (fun a b => c.conf.policy a ≤ c.conf.policy b) }

/-- The eviction loop of `trim`, parameterised by the parent's `put_value`
(`putP`).  With a parent: fetch the victim's value (`self.get_value`), remove
it everywhere (`self.remove_value`), and if the value is truthy promote it
into the parent.  Without a parent: just remove it. -/
def evictGo (tr : V → Bool) :
    {n : ℕ} → (putP : Chain K V n → K → V → ℕ → Except Unit (Chain K V n × ℕ)) →
    Chain K V (n + 1) → List K → ℕ → Except Unit (Chain K V (n + 1) × ℕ)
  | _, _, ch, [], clock => .ok (ch, clock)
  | 0, putP, .cons c rest, k :: ks, clock =>
    evictGo tr putP (remove_value (.cons c rest) k) ks clock
  | _ + 1, putP, .cons c rest, k :: ks, clock =>
    match get_value tr (.cons c rest) k clock with
    | .error e => .error e
    | .ok (v?, ch1, clock1) =>
      let ch2 := remove_value ch1 k
      match v? with
      | some v =>
        if tr v then
          match ch2 with
          | .cons c2 rest2 =>
            match putP rest2 k v clock1 with
            | .error e => .error e
            | .ok (rest3, clock2) => evictGo tr putP (.cons c2 rest3) ks clock2
        else evictGo tr putP ch2 ks clock1
      | none => evictGo tr putP ch2 ks clock1

/-- `trim(extra_size)`, parameterised by the parent's `put_value`: sort the
item list by the policy (a persistent mutation), select victims, then evict
them.  (The lock release/re-acquire between selection and eviction is a no-op
single-threadedly.) -/
def trimGo (tr : V → Bool) {n : ℕ}
    (putP : Chain K V n → K → V → ℕ → Except Unit (Chain K V n × ℕ))
    (ch : Chain K V (n + 1)) (extra : ℕ) (clock : ℕ) :
    Except Unit (Chain K V (n + 1) × ℕ) :=
  match ch with
  | .cons c rest =>
    let c1 := sortItems c
    let keys := selectVictims (maxSize c.conf) c.size extra c1.items
    evictGo tr putP (.cons c1 rest) keys clock

/-- `put_value(key, value)`, parameterised by the parent's `put_value`:
remove the key from the parent chain, pop any local item under the key,
store the new item, trim if admitting it would exceed `max_size`, then
account and append it. -/
def putGo (tr : V → Bool) {n : ℕ}
    (putP : Chain K V n → K → V → ℕ → Except Unit (Chain K V n × ℕ))
    (ch : Chain K V (n + 1)) (k : K) (v : V) (clock : ℕ) :
    Except Unit (Chain K V (n + 1) × ℕ) :=
  match ch with
  | .cons c rest =>
    let rest1 := remove_value rest k
    let c1 := removeLocal c k
    let (it, clock1) := mkStoredItem c.conf k v clock
    if intGtRat (c1.size + (it.stored_size : ℤ)) (maxSize c.conf) then
      match trimGo tr putP (.cons c1 rest1) it.stored_size clock1 with
      | .error e => .error e
      | .ok (.cons c2 rest2, clock2) =>
        .ok (.cons { c2 with size := c2.size + it.stored_size,
                             items := c2.items ++ [it] } rest2, clock2)
    else
      .ok (.cons { c1 with size := c1.size + it.stored_size,
                           items := c1.items ++ [it] } rest1, clock1)

/-- `put_value` on a chain; the `n = 0` case is dead code (the source only
calls `put_value` on an existing cache object). -/
def put_value (tr : V → Bool) :
    {n : ℕ} → Chain K V n → K → V → ℕ → Except Unit (Chain K V n × ℕ)
  | 0, _, _, _, clock => .ok (.nil, clock)
  | _ + 1, ch, k, v, clock => putGo tr (put_value tr) ch k v clock

/-- The public `trim(extra_size)` entry point. -/
def trim (tr : V → Bool) :
    {n : ℕ} → Chain K V n → ℕ → ℕ → Except Unit (Chain K V n × ℕ)
  | 0, _, _, clock => .ok (.nil, clock)
  | _ + 1, ch, extra, clock => trimGo tr (put_value tr) ch extra clock

/-- The per-key loop of `clear`: when a parent exists and `clear_parent` is
false, fetch the value, promote a truthy value into the parent via
`put_value`, then `self.remove_value(key)` — which removes the key from the
parent chain again. -/
def clearKeys (tr : V → Bool) (clearParent : Bool) :
    {n : ℕ} → Chain K V (n + 1) → List K → ℕ → Except Unit (Chain K V (n + 1) × ℕ)
  | _, ch, [], clock => .ok (ch, clock)
  | 0, .cons c rest, k :: ks, clock =>
    clearKeys tr clearParent (remove_value (.cons c rest) k) ks clock
  | _ + 1, .cons c rest, k :: ks, clock =>
    if clearParent then
      clearKeys tr clearParent (remove_value (.cons c rest) k) ks clock
    else
      match get_value tr (.cons c rest) k clock with
      | .error e => .error e
      | .ok (v?, ch1, clock1) =>
        match v? with
        | some v =>
          if tr v then
            match ch1 with
            | .cons c1 rest1 =>
              match put_value tr rest1 k v clock1 with
              | .error e => .error e
              | .ok (rest2, clock2) =>
                clearKeys tr clearParent (remove_value (.cons c1 rest2) k) ks clock2
          else clearKeys tr clearParent (remove_value ch1 k) ks clock1
        | none => clearKeys tr clearParent (remove_value ch1 k) ks clock1

/-- `clear(clear_parent)`: recursively clear the parent when requested, then
run the per-key loop over a snapshot of the resident keys. -/
def clear (tr : V → Bool) :
    {n : ℕ} → Chain K V n → Bool → ℕ → Except Unit (Chain K V n × ℕ)
  | 0, _, _, clock => .ok (.nil, clock)
  | _ + 1, .cons c .nil, clearParent, clock =>
    clearKeys tr clearParent (.cons c .nil) (c.items.map (·.key)) clock
  | _ + 1, .cons c (.cons p prest), clearParent, clock =>
    if clearParent then
      match clear tr (.cons p prest) true clock with
      | .error e => .error e
      | .ok (rest', clock') =>
        clearKeys tr true (.cons c rest') (c.items.map (·.key)) clock'
    else
      clearKeys tr clearParent (.cons c (.cons p prest)) (c.items.map (·.key)) clock

/-- A public cache operation, for quantifying over operation sequences. -/
inductive Op (K V : Type) where
  | put : K → V → Op K V
  | remove : K → Op K V
  | get : K → Op K V
  | trimBy : ℕ → Op K V
  | clearWith : Bool → Op K V

/-- Run one public operation on the cache at the head of the chain. -/
def runOp (tr : V → Bool) {n : ℕ} :
    Op K V → Chain K V n → ℕ → Except Unit (Chain K V n × ℕ)
  | .put k v, ch, clock => put_value tr ch k v clock
  | .remove k, ch, clock => .ok (remove_value ch k, clock)
  | .get k, ch, clock =>
    match get_value tr ch k clock with
    | .error e => .error e
    | .ok (_, ch', clock') => .ok (ch', clock')
  | .trimBy extra, ch, clock => trim tr ch extra clock
  | .clearWith b, ch, clock => clear tr ch b clock

/-- Run a sequence of public operations; an exception aborts the sequence. -/
def runOps (tr : V → Bool) {n : ℕ} :
    List (Op K V) → Chain K V n → ℕ → Except Unit (Chain K V n × ℕ)
  | [], ch, clock => .ok (ch, clock)
  | op :: ops, ch, clock =>
    match runOp tr op ch clock with
    | .error e => .error e
    | .ok (ch', clock') => runOps tr ops ch' clock'

/-- The keys resident in one tier, in item-list order. -/
def keysOf (c : CacheLocal K V) : List K := c.items.map (·.key)

/-- All keys resident anywhere in the chain. -/
def allKeys : {n : ℕ} → Chain K V n → List K
  | _, .nil => []
  | _, .cons c rest => keysOf c ++ allKeys rest

/-- A fresh cache tier: `__init__` sets `size = 0` and no items. -/
def initLocal (conf : Config K V) : CacheLocal K V :=
  { conf := conf, size := 0, items := [] }

/-- A fresh two-tier cache (a cache plus its `parent_cache`). -/
def initChain2 (confChild confParent : Config K V) : Chain K V 2 :=
  .cons (initLocal confChild) (.cons (initLocal confParent) .nil)

/-- A fresh parentless cache. -/
def initChain1 (conf : Config K V) : Chain K V 1 :=
  .cons (initLocal conf) .nil

/-!
## utils.py
-/

/-- `cardinal_div_round(num, denom) = (num + denom - 1) // denom` (ceiling
division for positive arguments; `denom = 0` raises in Python and is never
reached by the claims). -/
def cardinal_div_round (num denom : ℕ) : ℕ := (num + denom - 1) / denom

/-- The loop of `cardinal_log2`, with explicit fuel.  For every `x ≥ 1` the
loop runs at most `log₂ x < x + 1` times, so fuel `x + 1` reproduces the
Python loop exactly; on `x = 0` the Python loop diverges (dead code for the
claims). -/
def cardinal_log2Aux : ℕ → ℕ → ℕ → ℕ
  | 0, _, n => n
  | fuel + 1, x, n => if x % 2 = 0 then cardinal_log2Aux fuel (x / 2) (n + 1) else n

/-- `cardinal_log2(x)`: the number of times 2 divides `x`. -/
def cardinal_log2 (x : ℕ) : ℕ := cardinal_log2Aux (x + 1) x 0

/-- The natural-halving loop of `compute_tile_size`, with explicit fuel:
halve `ts` while it is even and the half is at least `tile_size_min`,
counting levels.  For every positive `total_size` the loop runs at most
`log₂ total_size < total_size + 1` times, so fuel `total_size + 1`
reproduces the Python loop; on `ts = 0 ∧ tile_size_min = 0` the Python loop
diverges (dead code for the claims). -/
def tileSizeHalveAux (tile_size_min : ℕ) : ℕ → ℕ → ℕ → ℕ × ℕ
  | 0, ts, n => (ts, n)
  | fuel + 1, ts, n =>
    if ts % 2 = 0 then
      let ts2 := ts / 2
      if ts2 < tile_size_min then (ts, n)
      else tileSizeHalveAux tile_size_min fuel ts2 (n + 1)
    else (ts, n)

/-- Python truthiness of an optional integer argument (`None` and `0` are
falsy). -/
def optTruthy (o : Option ℕ) : Bool :=
  match o with
  | some m => m ≠ 0
  | none => false

/-- `range(tile_size_min, tile_size_max + 1, tile_size_step)`.  Python
raises on `step = 0`; that case is never reached by the claims. -/
def pyRange (start stop step : ℕ) : List ℕ :=
  if step = 0 then [] else List.range' start ((stop - start + step - 1) / step) step

/-- One iteration of the candidate scan of `compute_tile_size`, folding the
running `(min_penalty, best_tile_size)` pair over a candidate `ts`. -/
def scanStep (total_size : ℕ) (chunk_size num_levels_min : Option ℕ) (int_div : Bool)
    (acc : ℕ × Option ℕ) (ts : ℕ) : ℕ × Option ℕ :=
  if int_div = true ∧ total_size % ts ≠ 0 then acc
  else
    let num_tiles := cardinal_div_round total_size ts
    if optTruthy num_levels_min = true ∧
        cardinal_log2 (num_tiles * ts) < num_levels_min.getD 0 then acc
    else
      let total_size_excess := ts * num_tiles - total_size
      let penalty := total_size_excess +
        (match chunk_size with
         | some c => if c ≠ 0 then ts * cardinal_div_round ts c - ts else 0
         | none => 0)
      if penalty < acc.1 then (penalty, some ts) else acc

/-- `compute_tile_size` of utils.py.  The natural-halving branch returns
directly when its result is small enough (and deep enough, when
`num_levels_min` is given); otherwise the brute-force scan runs, and
`raise ValueError` is modelled as `Except.error ()` (including the
`if not best_tile_size` falsy test catching a best size of 0). -/
def compute_tile_size (total_size tile_size_min tile_size_max tile_size_step : ℕ)
    (chunk_size num_levels_min : Option ℕ) (int_div : Bool) : Except Unit ℕ :=
  let tsn := tileSizeHalveAux tile_size_min (total_size + 1) total_size 0
  if tsn.1 ≤ tile_size_max ∧
      (optTruthy num_levels_min = false ∨ num_levels_min.getD 0 ≤ tsn.2) then
    .ok tsn.1
  else
    let scanned := (pyRange tile_size_min (tile_size_max + 1) tile_size_step).foldl
      (scanStep total_size chunk_size num_levels_min int_div) (10 * total_size, none)
    match scanned.2 with
    | some ts => if ts ≠ 0 then .ok ts else .error ()
    | none => .error ()

/-!
## image.py
-/

/-- The buggy default image id of `AbstractTiledImage.__init__`:
`str(uuid.uuid4)` stringifies the *function object* `uuid.uuid4` instead of
calling it, producing one fixed string per process (the function's repr), so
every default-constructed image shares this id. -/
def defaultImageId : String := "<built-in function uuid4>"

/-- Python truthiness of a string (empty is falsy). -/
def strTruthy (s : String) : Bool := s ≠ ""

/-- `self._id = image_id if image_id else str(uuid.uuid4)`. -/
def mkImageId (image_id : Option String) : String :=
  match image_id with
  | some s => if strTruthy s then s else defaultImageId
  | none => defaultImageId

/-- `AbstractTiledImage.get_tile_id`: `'%s/%d/%d' % (self.id, tile_y, tile_x)`. -/
def get_tile_id (image_id : String) (tile_x tile_y : ℕ) : String :=
  image_id ++ "/" ++ toString tile_y ++ "/" ++ toString tile_x

/-- `OpImage.get_tile` with a cache attached (the parentless default): look
the tile id up in the cache, returning a cache hit unless the stored payload
is `None` (`if tile is not None`); otherwise invoke `compute_tile` on the
tile rectangle and `put_value` the result (even a `None` result).  Cache
values have type `Option T` because Python can store `None`; a miss and a
stored `None` are indistinguishable to the source.  The final component
counts the `compute_tile` invocations made by this call (0 or 1). -/
def opImage_get_tile {T : Type} (trT : Option T → Bool) (image_id : String)
    (tile_width tile_height : ℕ)
    (compute_tile : ℕ → ℕ → ℕ × ℕ × ℕ × ℕ → Option T)
    (ch : Chain String (Option T) 1) (clock : ℕ) (tile_x tile_y : ℕ) :
    Except Unit (Option T × Chain String (Option T) 1 × ℕ × ℕ) :=
  let tile_id := get_tile_id image_id tile_x tile_y
  match get_value trT ch tile_id clock with
  | .error e => .error e
  | .ok (r, ch1, clock1) =>
    match r with
    | some (some t) => .ok (some t, ch1, clock1, 0)
    | _ =>
      let t? := compute_tile tile_x tile_y
        (tile_width * tile_x, tile_height * tile_y, tile_width, tile_height)
      match put_value trT ch1 tile_id t? clock1 with
      | .error e => .error e
      | .ok (ch2, clock2) => .ok (t?, ch2, clock2, 1)

/-- The zoom factor of `FastNdarrayDownsamplingImage` for level `z_index` of
`num_levels`: `1 << (num_levels - z_index - 1)`. -/
def fastLevelZoom (num_levels z_index : ℕ) : ℕ := 2 ^ (num_levels - z_index - 1)

/-- The length of the Python slice `start : stop : step` over an axis of
length `dim` (for `step ≥ 1` and non-negative bounds). -/
def sliceLen (start stop step dim : ℕ) : ℕ :=
  let stop' := min stop dim
  if start < stop' then (stop' - start + (step - 1)) / step else 0

/-- `FastNdarrayDownsamplingImage.compute_tile`, reduced to the spatial
shape of the produced tile (the payload is opaque): scale the rectangle
`(tile_width·x, tile_height·y, tile_width, tile_height)` received from
`OpImage.get_tile` by `zoom`, take the strided slice of the underlying
array and `assert self.tile_size == actual_tile_size` — modelled as
`Except.error ()` when the assertion fails. -/
def fastCompute_tile (source_width source_height tile_width tile_height zoom : ℕ)
    (tile_x tile_y : ℕ) : Except Unit (ℕ × ℕ) :=
  let x := tile_width * tile_x * zoom
  let y := tile_height * tile_y * zoom
  let w := tile_width * zoom
  let h := tile_height * zoom
  let actual_w := sliceLen x (x + w) zoom source_width
  let actual_h := sliceLen y (y + h) zoom source_height
  if (tile_width, tile_height) = (actual_w, actual_h) then .ok (actual_w, actual_h)
  else .error ()

/-- The `while True` doubling loop of `ImagePyramid.compute_layout`, with
explicit fuel: double the tile counts until they cover `max_size`.  When the
loop terminates at all (in particular whenever the zero-level tile counts and
the tile edges are positive) it does so within `max_width + max_height + 2`
iterations, so that fuel reproduces the Python loop; otherwise Python
diverges (dead code for the claims). -/
def numLevelsLoopAux (max_width max_height tile_width tile_height : ℕ) :
    ℕ → ℕ → ℕ → ℕ → ℕ
  | 0, _, _, num_levels => num_levels
  | fuel + 1, num_tiles_x, num_tiles_y, num_levels =>
    if max_width ≤ num_tiles_x * tile_width ∧ max_height ≤ num_tiles_y * tile_height then
      num_levels
    else
      numLevelsLoopAux max_width max_height tile_width tile_height fuel
        (num_tiles_x * 2) (num_tiles_y * 2) (num_levels + 1)

/-- `ImagePyramid.compute_layout` for the `array = None` case used by the
claims.  `max_size = None` (`if not max_size`) raises; a missing `tile_size`
is computed per axis by `compute_tile_size` (whose `ValueError` propagates);
a missing `num_level_zero_tiles` is the coarse aspect-ratio count; a missing
(or zero — `if not num_levels`) `num_levels` is found by the doubling loop. -/
def compute_layout (max_size : Option (ℕ × ℕ)) (tile_size : Option (ℕ × ℕ))
    (int_div : Bool) (num_level_zero_tiles : Option (ℕ × ℕ)) (num_levels : Option ℕ) :
    Except Unit ((ℕ × ℕ) × (ℕ × ℕ) × (ℕ × ℕ) × ℕ) :=
  match max_size with
  | none => .error ()
  | some (max_width, max_height) =>
    let tszE : Except Unit (ℕ × ℕ) :=
      match tile_size with
      | some tsz => .ok tsz
      | none =>
        match compute_tile_size max_width 180 512 2 none none int_div,
              compute_tile_size max_height 180 512 2 none none int_div with
        | .ok tw, .ok th => .ok (tw, th)
        | _, _ => .error ()
    match tszE with
    | .error e => .error e
    | .ok (tile_width, tile_height) =>
      let nzt :=
        match num_level_zero_tiles with
        | some z => z
        | none => (cardinal_div_round max_width max_height,
                   cardinal_div_round max_height max_width)
      let computedLevels := numLevelsLoopAux max_width max_height tile_width tile_height
        (max_width + max_height + 2) nzt.1 nzt.2 1
      let nl :=
        match num_levels with
        | some m => if m ≠ 0 then m else computedLevels
        | none => computedLevels
      .ok ((max_width, max_height), (tile_width, tile_height), nzt, nl)

/-!
## Concrete instantiations used by scenarios, counterexamples and witnesses
-/

/-- Python truthiness of an integer value (`0` is falsy). -/
def natTruthy : ℕ → Bool := fun v => v ≠ 0

/-- A cache configuration with the default in-memory store (unit sizes) and
the LRU policy, over string keys and integer values. -/
def unitLRU (cap : ℕ) (thr : ℚ) : Config String ℕ :=
  { capacity := cap, threshold := thr, policy := POLICY_LRU,
    sizeFn := memoryCacheStoreSize }

/-- Truthiness for optional tile payloads (unused on parentless chains:
`tr` is only consulted in parent-cache branches). -/
def tileTruthy : Option ℕ → Bool := fun o => o.isSome

/-- A two-tier state in which the key `"a"` is resident in the parent tier
(with value 42) and absent from the child tier — exactly the situation after
a victim has been promoted to the parent by `trim`. -/
def promotedChain : Chain String ℕ 2 :=
  .cons (initLocal (unitLRU 2 1))
    (.cons { conf := unitLRU 4 1, size := 1,
             items := [{ key := "a", stored_value := 42, stored_size := 1,
                         creation_time := 0, access_time := 0, access_count := 1 }] }
      .nil)

/-- The resident key lists of the two tiers of a two-tier chain
(child first). -/
def tierKeys2 (ch : Chain String ℕ 2) : List String × List String :=
  (keysOf (Chain.head ch), keysOf (Chain.head (Chain.tail ch)))

/-- The coverage condition of the `compute_layout` doubling loop for a level
count `n ≥ 1`: the level-zero tile counts, doubled `n − 1` times, cover the
maximum size in both axes. -/
def layoutCovers (nzt tsz msz : ℕ × ℕ) (n : ℕ) : Prop :=
  msz.1 ≤ nzt.1 * 2 ^ (n - 1) * tsz.1 ∧ msz.2 ≤ nzt.2 * 2 ^ (n - 1) * tsz.2

instance (nzt tsz msz : ℕ × ℕ) (n : ℕ) : Decidable (layoutCovers nzt tsz msz n) := by
  unfold layoutCovers
  infer_instance

/-- A Python-falsy `image_id` constructor argument (`None` or the empty
string), which makes `AbstractTiledImage.__init__` fall back to
`str(uuid.uuid4)`. -/
def pyFalsyStr (o : Option String) : Prop := o = none ∨ o = some ""

/-!
## Derived observations and invariants
-/

/-- The total stored size of a list of items (`sum(stored_size)`). -/
def sumSizes (items : List (Item K V)) : ℤ :=
  (items.map (fun it => (it.stored_size : ℤ))).sum

/-- Well-formedness of one tier, as maintained by the source's
dict/list bookkeeping: resident keys are unique (dict semantics) and
`self._size` is the sum of the resident stored sizes. -/
def localWF (c : CacheLocal K V) : Prop :=
  (keysOf c).Nodup ∧ c.size = sumSizes c.items

/-- Well-formedness of a whole chain: every tier is well-formed and the
resident key sets of distinct tiers are pairwise disjoint. -/
def chainWF {n : ℕ} (ch : Chain K V n) : Prop :=
  (∀ c ∈ ch.toList, localWF c) ∧ (ch.toList.map keysOf).Pairwise List.Disjoint

/-- Every value the store can produce fits under the capacity bound
(`stored_size ≤ max_size`); this holds for `MemoryCacheStore` whenever
`1 ≤ max_size`. -/
def boundedSizes (conf : Config K V) : Prop :=
  ∀ k v, ((conf.sizeFn k v : ℤ) : ℚ) ≤ maxSize conf

/-- Repeated local removal, as performed by the eviction loop of `trim` on
a parentless cache. -/
def removeKeysLocal (c : CacheLocal K V) (ks : List K) : CacheLocal K V :=
  ks.foldl removeLocal c

/-- The effect of `put_value` on a parentless cache, as a pure function on
the tier state (`put_value_singleton` below proves that `put_value` computes
exactly this, advancing the clock by one): pop any existing item under the
key, build the stored item, trim on overflow, then account and append. -/
def putLocal1 (c : CacheLocal K V) (k : K) (v : V) (clock : ℕ) : CacheLocal K V :=
  let c1 := removeLocal c k
  let it : Item K V := { key := k, stored_value := v, stored_size := c.conf.sizeFn k v,
                         creation_time := 0, access_time := clock, access_count := 1 }
  if intGtRat (c1.size + (it.stored_size : ℤ)) (maxSize c.conf) then
    let c1s := sortItems c1
    let c2 := removeKeysLocal c1s
      (selectVictims (maxSize c1.conf) c1.size it.stored_size c1s.items)
    { c2 with size := c2.size + it.stored_size, items := c2.items ++ [it] }
  else
    { c1 with size := c1.size + it.stored_size, items := c1.items ++ [it] }

/-- A unit-size (default `MemoryCacheStore`), threshold-1.0, LRU cache of
capacity `N` — the configuration of the C5 scenario. -/
def lruUnitConf (N : ℕ) : Config K V :=
  { capacity := N, threshold := 1, policy := POLICY_LRU,
    sizeFn := memoryCacheStoreSize }

/-- The C5 operation sequence: insert `N` distinct equal-size keys
`key 0 … key (N−1)`, access `key 0`, then insert the fresh key `key N`. -/
def lruScenarioOps (key : ℕ → K) (v : ℕ → V) (N : ℕ) (newV : V) : List (Op K V) :=
  ((List.range N).map (fun i => Op.put (key i) (v i))) ++
    [Op.get (key 0), Op.put (key N) newV]

/-- A default in-memory tile cache configuration (unit sizes, LRU) over
optional tile payloads, used by the C8 scenario. -/
def tileCacheConf : Config String (Option ℕ) :=
  { capacity := 10, threshold := 1, policy := POLICY_LRU,
    sizeFn := memoryCacheStoreSize }

/-- The configuration of the C1 counterexample: `Cache(MemoryCacheStore(),
capacity=1, threshold=0.5)` (a threshold within the documented `(0, 1)`
range), whose `max_size` is ½ — below the size of any single item. -/
def c1CexConf : Config String ℕ :=
  { capacity := 1, threshold := mkRat 1 2, policy := POLICY_LRU,
    sizeFn := memoryCacheStoreSize }

/-- The per-tier resident key sets of a chain, head first. -/
def tiersKeys {n : ℕ} (ch : Chain K V n) : List (List K) :=
  ch.toList.map keysOf

/-- The key-level well-formedness of a chain: each tier's resident keys are
free of duplicates, and the key sets of distinct tiers are pairwise disjoint
(no key is resident in two tiers at once) — the C2 invariant. -/
def chainKeysWF {n : ℕ} (ch : Chain K V n) : Prop :=
  (∀ l ∈ tiersKeys ch, l.Nodup) ∧ (tiersKeys ch).Pairwise List.Disjoint

/-- The induction contract for a parent `put_value`: it preserves the key
invariant and introduces no resident key other than the one being put. -/
def PutSpec {n : ℕ}
    (putP : Chain K V n → K → V → ℕ → Except Unit (Chain K V n × ℕ)) : Prop :=
  ∀ ch k v cl ch' cl', chainKeysWF ch → putP ch k v cl = .ok (ch', cl') →
    chainKeysWF ch' ∧ ∀ x ∈ allKeys ch', x ∈ allKeys ch ∨ x = k

/-!
## C3 — `get_value` through a parent cache
-/

/-- C3.  The claim says that for a key resident only in the parent,
`get_value` on the child returns the value stored in the parent; the code
instead binds `item = self._parent_cache.get_value(key)` — a plain *value* —
and then calls `item.restore(...)` on it, raising `AttributeError`
(`Except.error ()` in the model).  The first conjunct shows the failure on a
direct parent-resident state, the second reproduces it after an actual
promotion: child capacity 2, puts of a, b, c promote the LRU victim `"a"`
into the parent (third conjunct), and the subsequent `get_value("a")` on the
child raises instead of returning 1. -/
theorem get_value_parent_raises :
    get_value natTruthy promotedChain "a" 5 = .error () ∧
    (runOps natTruthy [Op.put "a" 1, Op.put "b" 2, Op.put "c" 3]
        (initChain2 (unitLRU 2 1) (unitLRU 4 1)) 0).bind
      (fun p => (get_value natTruthy p.1 "a" p.2).map (fun q => q.1)) = .error () ∧
    (runOps natTruthy [Op.put "a" 1, Op.put "b" 2, Op.put "c" 3]
        (initChain2 (unitLRU 2 1) (unitLRU 4 1)) 0).map
      (fun p => tierKeys2 p.1) = .ok (["b", "c"], ["a"]) := by
  refine ⟨rfl, rfl, rfl⟩

/-!
## C4 — `clear(clear_parent=False)`
-/

/-- C4.  The claim (and the spec) say `clear(clear_parent=False)` copies
each locally resident value up to the parent and then removes it locally, so
the parent retains them; but the source's per-key loop ends with
`self.remove_value(key)`, and `remove_value` removes the key *from the
parent first* — deleting the value that was just promoted.  After putting
`"a" ↦ 42` into the child and clearing with `clear_parent=False`, both the
child and the parent are empty: the parent does not retain `"a"`. -/
theorem clear_keep_parent_drops_values :
    (runOps natTruthy [Op.put "a" 42] (initChain2 (unitLRU 4 1) (unitLRU 4 1)) 0).bind
      (fun p => (clear natTruthy p.1 false p.2).map (fun q => tierKeys2 q.1)) =
      .ok ([], []) := by
  rfl

/-!
## C6 — `compute_tile_size` scenarios
-/

/-- C6, counterexample.  The claim (scenario S3) asserts
`compute_tile_size(2048, 180, 512, 2) = 512` and
`compute_tile_size(1000, 180, 512, 2, int_div=True) = 500`; but the
natural-halving loop keeps halving while the half is ≥ 180, reaching
2048→1024→512→256 (256 ≥ 180) and 1000→500→250 (250 ≥ 180), and the
natural branch returns before `int_div` is ever consulted. -/
theorem compute_tile_size_scenario_false :
    ¬(compute_tile_size 2048 180 512 2 none none false = .ok 512 ∧
      compute_tile_size 1000 180 512 2 none none true = .ok 500) := by
  intro h
  have h1 := h.1
  rw [show compute_tile_size 2048 180 512 2 none none false = Except.ok 256 from rfl] at h1
  simp at h1

/-- C6, amended.  `compute_tile_size(2048, 180, 512, 2)` returns 256 via the
natural-halving branch (2048→1024→512→256, stopping because 128 < 180, with
3 levels counted), and `compute_tile_size(1000, 180, 512, 2, int_div=True)`
returns 250 the same way (1000→500→250, 125 < 180; `int_div` only affects
the scan branch, which is not reached). -/
theorem compute_tile_size_scenario :
    compute_tile_size 2048 180 512 2 none none false = .ok 256 ∧
    tileSizeHalveAux 180 2049 2048 0 = (256, 3) ∧
    compute_tile_size 1000 180 512 2 none none true = .ok 250 ∧
    tileSizeHalveAux 180 1001 1000 0 = (250, 2) := by
  refine ⟨rfl, rfl, rfl, rfl⟩

/-!
## C7 — pyramid layout for 4096×2048 with tile 512
-/

/-- C7.  `compute_layout` with `max_size = (4096, 2048)` and
`tile_size = (512, 512)` yields `num_level_zero_tiles = (2, 1)`
(`= (ceil(4096/2048), ceil(2048/4096))`) and `num_levels = 3`; and 3 is the
least level count whose doubled tile grid covers the maximum size
(1 and 2 levels do not cover it, 3 levels do: 8·512 ≥ 4096 and
4·512 ≥ 2048). -/
theorem compute_layout_4096_2048 :
    compute_layout (some (4096, 2048)) (some (512, 512)) true none none =
      .ok ((4096, 2048), (512, 512), (2, 1), 3) ∧
    cardinal_div_round 4096 2048 = 2 ∧ cardinal_div_round 2048 4096 = 1 ∧
    ¬layoutCovers (2, 1) (512, 512) (4096, 2048) 1 ∧
    ¬layoutCovers (2, 1) (512, 512) (4096, 2048) 2 ∧
    layoutCovers (2, 1) (512, 512) (4096, 2048) 3 := by
  refine ⟨rfl, rfl, rfl, by decide, by decide, by decide⟩

/-!
## C9 — default image ids collide
-/

/-- C9.  The claim says two images constructed without an explicit
`image_id` receive *different* fresh unique ids, so per-tile cache keys never
collide; but the default is `str(uuid.uuid4)` — the stringified function
object, one fixed string per process — so *any* two default-constructed
images share the same id, and their `get_tile_id` keys collide at every tile
coordinate. -/
theorem default_image_ids_collide (a b : Option String) (tile_x tile_y : ℕ)
    (ha : pyFalsyStr a) (hb : pyFalsyStr b) :
    mkImageId a = mkImageId b ∧
    get_tile_id (mkImageId a) tile_x tile_y = get_tile_id (mkImageId b) tile_x tile_y := by
  have ea : mkImageId a = defaultImageId := by
    rcases ha with h | h <;> subst h <;> rfl
  have eb : mkImageId b = defaultImageId := by
    rcases hb with h | h <;> subst h <;> rfl
  rw [ea, eb]
  exact ⟨rfl, rfl⟩

/-- Witness for `default_image_ids_collide` at two `None` ids and tile
(0, 0). -/
theorem default_image_ids_collide_witness :
    pyFalsyStr (none : Option String) ∧
    (mkImageId none = mkImageId none ∧
      get_tile_id (mkImageId none) 0 0 = get_tile_id (mkImageId none) 0 0) :=
  ⟨Or.inl rfl, default_image_ids_collide none none 0 0 (Or.inl rfl) (Or.inl rfl)⟩

/-!
## C10 — `FastNdarrayDownsamplingImage.compute_tile` tile-shape safety
-/

/-- Upper bound on a strided-slice length: slicing `t · step` indices with
stride `step` yields at most `t` elements. -/
theorem sliceLen_le (start t step dim : ℕ) (hstep : 1 ≤ step) :
    sliceLen start (start + t * step) step dim ≤ t := by
  unfold sliceLen
  by_cases h : start < min (start + t * step) dim
  · rw [if_pos h]
    have hd : min (start + t * step) dim - start ≤ t * step := by omega
    have ha : min (start + t * step) dim - start + (step - 1) < (t + 1) * step := by
      have h1 : min (start + t * step) dim - start + (step - 1) < t * step + step := by
        omega
      calc min (start + t * step) dim - start + (step - 1) < t * step + step := h1
        _ = (t + 1) * step := by ring
    exact Nat.le_of_lt_succ ((Nat.div_lt_iff_lt_mul (by omega)).2 ha)
  · rw [if_neg h]
    exact Nat.zero_le t

/-- C10, counterexample to the claim's stated equivalence.  For a 7×7 source
at level 0 of 2 (zoom 2), the level size is 3×3 — *not* an integer multiple
of the tile edge 2 — and (1, 0) is the trailing tile column
(`num_tiles_x = 2`); yet `compute_tile` *returns* a full 2×2 tile instead of
raising: the source remainder pixel (7 = 2·3 + 1) extends the strided slice
to full length, so the assertion passes. -/
theorem fast_compute_tile_partial_no_raise :
    fastCompute_tile 7 7 2 2 (fastLevelZoom 2 0) 1 0 = .ok (2, 2) ∧
    (7 / fastLevelZoom 2 0) % 2 ≠ 0 ∧
    cardinal_div_round (7 / fastLevelZoom 2 0) 2 = 2 := by
  refine ⟨rfl, by decide, rfl⟩

/-- C10, amended.  `FastNdarrayDownsamplingImage.compute_tile` either
returns a tile whose spatial shape is exactly `tile_size` or raises
`AssertionError`; and it raises *exactly* when the zoomed strided slice is
smaller than `tile_size` (which at a boundary tile usually — but, per the
counterexample, not always — coincides with the level size not being a
multiple of the tile edge). -/
theorem fast_compute_tile_shape
    (source_width source_height tile_width tile_height nl z tx ty : ℕ) :
    (∀ s, fastCompute_tile source_width source_height tile_width tile_height
        (fastLevelZoom nl z) tx ty = .ok s → s = (tile_width, tile_height)) ∧
    (fastCompute_tile source_width source_height tile_width tile_height
        (fastLevelZoom nl z) tx ty = .error () ↔
      sliceLen (tile_width * tx * fastLevelZoom nl z)
          (tile_width * tx * fastLevelZoom nl z + tile_width * fastLevelZoom nl z)
          (fastLevelZoom nl z) source_width < tile_width ∨
      sliceLen (tile_height * ty * fastLevelZoom nl z)
          (tile_height * ty * fastLevelZoom nl z + tile_height * fastLevelZoom nl z)
          (fastLevelZoom nl z) source_height < tile_height) := by
  have hz : 1 ≤ fastLevelZoom nl z := Nat.one_le_two_pow
  have hw := sliceLen_le (tile_width * tx * fastLevelZoom nl z) tile_width
    (fastLevelZoom nl z) source_width hz
  have hh := sliceLen_le (tile_height * ty * fastLevelZoom nl z) tile_height
    (fastLevelZoom nl z) source_height hz
  unfold fastCompute_tile
  constructor
  · intro s hs
    by_cases hc : (tile_width, tile_height) =
        (sliceLen (tile_width * tx * fastLevelZoom nl z)
          (tile_width * tx * fastLevelZoom nl z + tile_width * fastLevelZoom nl z)
          (fastLevelZoom nl z) source_width,
         sliceLen (tile_height * ty * fastLevelZoom nl z)
          (tile_height * ty * fastLevelZoom nl z + tile_height * fastLevelZoom nl z)
          (fastLevelZoom nl z) source_height)
    · rw [if_pos hc] at hs
      cases hs
      exact hc.symm
    · rw [if_neg hc] at hs
      cases hs
  · by_cases hc : (tile_width, tile_height) =
        (sliceLen (tile_width * tx * fastLevelZoom nl z)
          (tile_width * tx * fastLevelZoom nl z + tile_width * fastLevelZoom nl z)
          (fastLevelZoom nl z) source_width,
         sliceLen (tile_height * ty * fastLevelZoom nl z)
          (tile_height * ty * fastLevelZoom nl z + tile_height * fastLevelZoom nl z)
          (fastLevelZoom nl z) source_height)
    · rw [if_pos hc]
      have h1 := congrArg Prod.fst hc
      have h2 := congrArg Prod.snd hc
      simp only at h1 h2
      constructor
      · intro hcon
        cases hcon
      · intro hcon
        omega
    · rw [if_neg hc]
      have hne : tile_width ≠ sliceLen (tile_width * tx * fastLevelZoom nl z)
          (tile_width * tx * fastLevelZoom nl z + tile_width * fastLevelZoom nl z)
          (fastLevelZoom nl z) source_width ∨
          tile_height ≠ sliceLen (tile_height * ty * fastLevelZoom nl z)
          (tile_height * ty * fastLevelZoom nl z + tile_height * fastLevelZoom nl z)
          (fastLevelZoom nl z) source_height := by
        by_contra hcon
        push_neg at hcon
        exact hc (Prod.ext hcon.1 hcon.2)
      constructor
      · intro _
        omega
      · intro _
        rfl

/-- Witness for `fast_compute_tile_shape`: an 8×8 source at level 0 of 2
(zoom 2, level size 4×4) yields a full 2×2 tile at (0, 0). -/
theorem fast_compute_tile_shape_witness :
    fastCompute_tile 8 8 2 2 (fastLevelZoom 2 0) 0 0 = Except.ok (2, 2) ∧
    ((2, 2) : ℕ × ℕ) = (2, 2) :=
  ⟨rfl, (fast_compute_tile_shape 8 8 2 2 2 0 0 0).1 (2, 2) rfl⟩

/-!
## Bridge lemmas for the kernel-friendly rational comparisons
-/

/-- `maxSize` is `capacity * threshold`, as in the source. -/
theorem maxSize_eq (c : Config K V) : maxSize c = (c.capacity : ℚ) * c.threshold := by
  unfold maxSize
  rw [Rat.mkRat_eq_div]
  push_cast
  rw [mul_div_assoc, Rat.num_div_den]

/-- `intGtRat` decides `q < z`. -/
theorem intGtRat_iff (z : ℤ) (q : ℚ) : intGtRat z q = true ↔ q < (z : ℚ) := by
  unfold intGtRat
  rw [decide_eq_true_iff, Rat.lt_def]
  simp

/-- `intGtRat` is false exactly when `z ≤ q`. -/
theorem intGtRat_eq_false_iff (z : ℤ) (q : ℚ) :
    intGtRat z q = false ↔ (z : ℚ) ≤ q := by
  rw [← Bool.not_eq_true, not_iff_comm, intGtRat_iff, not_le]

/-!
## Lemmas about the item-list primitives
-/

theorem findItem_eq_none_iff {k : K} {items : List (Item K V)} :
    findItem k items = none ↔ ∀ it ∈ items, it.key ≠ k := by
  unfold findItem
  rw [List.find?_eq_none]
  simp

theorem findItem_key {k : K} {items : List (Item K V)} {it : Item K V}
    (h : findItem k items = some it) : it.key = k := by
  have := List.find?_some h
  simpa using this

theorem findItem_mem {k : K} {items : List (Item K V)} {it : Item K V}
    (h : findItem k items = some it) : it ∈ items :=
  List.mem_of_find?_eq_some h

/-- The first item found under `k` splits the list into a `k`-free prefix,
the item, and a suffix; erasure drops exactly the found item. -/
theorem findItem_eraseItem_decomp {k : K} {items : List (Item K V)} {it : Item K V}
    (h : findItem k items = some it) :
    ∃ l₁ l₂, (∀ b ∈ l₁, b.key ≠ k) ∧ items = l₁ ++ it :: l₂ ∧
      eraseItem k items = l₁ ++ l₂ := by
  obtain ⟨a, l₁, l₂, hl₁, hpa, hdecomp, herase⟩ :=
    @List.exists_of_eraseP (Item K V) (fun b => decide (b.key = k)) items it
      (findItem_mem h) (decide_eq_true (findItem_key h))
  have ha : a = it := by
    have hfa : findItem k items = some a := by
      unfold findItem
      have h1 : List.find? (fun it : Item K V => decide (it.key = k)) l₁ = none :=
        List.find?_eq_none.2 hl₁
      have h2 : List.find? (fun it : Item K V => decide (it.key = k)) (a :: l₂) = some a :=
        List.find?_cons_of_pos _ hpa
      rw [hdecomp, List.find?_append, h1, h2]
      rfl
    rw [h] at hfa
    exact (Option.some_injective _ hfa).symm
  subst ha
  exact ⟨l₁, l₂, fun b hb => by simpa using hl₁ b hb, hdecomp, herase⟩

theorem sumSizes_append (l₁ l₂ : List (Item K V)) :
    sumSizes (l₁ ++ l₂) = sumSizes l₁ + sumSizes l₂ := by
  unfold sumSizes
  rw [List.map_append, List.sum_append]

theorem sumSizes_eraseItem {k : K} {items : List (Item K V)} {it : Item K V}
    (h : findItem k items = some it) :
    sumSizes (eraseItem k items) = sumSizes items - it.stored_size := by
  obtain ⟨l₁, l₂, _, hdecomp, herase⟩ := findItem_eraseItem_decomp h
  rw [herase, hdecomp, sumSizes_append, sumSizes_append]
  unfold sumSizes
  simp
  ring

theorem nodup_keys_eraseItem {k : K} {items : List (Item K V)}
    (h : (items.map (·.key)).Nodup) : ((eraseItem k items).map (·.key)).Nodup :=
  ((List.eraseP_sublist items).map (·.key)).nodup h

theorem mem_keys_eraseItem {k : K} {items : List (Item K V)}
    (hnd : (items.map (·.key)).Nodup) (x : K) :
    x ∈ (eraseItem k items).map (·.key) ↔ x ∈ items.map (·.key) ∧ x ≠ k := by
  cases hfind : findItem k items with
  | none =>
    have hself : eraseItem k items = items :=
      List.eraseP_of_forall_not (fun a ha => by
        simpa using findItem_eq_none_iff.1 hfind a ha)
    rw [hself]
    constructor
    · intro hx
      refine ⟨hx, ?_⟩
      rintro rfl
      obtain ⟨it, hit, hkey⟩ := List.mem_map.1 hx
      exact findItem_eq_none_iff.1 hfind it hit hkey
    · exact fun hx => hx.1
  | some it =>
    obtain ⟨l₁, l₂, hl₁, hdecomp, herase⟩ := findItem_eraseItem_decomp hfind
    have hkey := findItem_key hfind
    have hkeys : items.map (·.key) = l₁.map (·.key) ++ k :: l₂.map (·.key) := by
      rw [hdecomp]
      simp [hkey]
    have herasekeys : (eraseItem k items).map (·.key) = l₁.map (·.key) ++ l₂.map (·.key) := by
      rw [herase]
      simp
    have hk1 : k ∉ l₁.map (·.key) := by
      intro hx
      obtain ⟨b, hb, hbk⟩ := List.mem_map.1 hx
      exact hl₁ b hb hbk
    have hk2 : k ∉ l₂.map (·.key) := by
      rw [hkeys] at hnd
      have h2 := (List.nodup_append.1 hnd).2.1
      exact (List.nodup_cons.1 h2).1
    rw [hkeys, herasekeys]
    simp only [List.mem_append, List.mem_cons]
    constructor
    · intro hx
      rcases hx with hx | hx
      · exact ⟨Or.inl hx, fun he => hk1 (he ▸ hx)⟩
      · exact ⟨Or.inr (Or.inr hx), fun he => hk2 (he ▸ hx)⟩
    · rintro ⟨hx | hx, hne⟩
      · exact Or.inl hx
      · rcases hx with rfl | hx
        · exact absurd rfl hne
        · exact Or.inr hx

/-!
## Lemmas about single-tier operations
-/

theorem removeLocal_conf (c : CacheLocal K V) (k : K) :
    (removeLocal c k).conf = c.conf := by
  unfold removeLocal
  cases findItem k c.items <;> rfl

theorem removeLocal_size_le (c : CacheLocal K V) (k : K) :
    (removeLocal c k).size ≤ c.size := by
  unfold removeLocal
  cases findItem k c.items with
  | none => exact le_refl _
  | some it =>
    simp only
    omega

theorem removeLocal_items_subset (c : CacheLocal K V) (k : K) :
    ∀ it ∈ (removeLocal c k).items, it ∈ c.items := by
  unfold removeLocal
  cases findItem k c.items with
  | none => exact fun it h => h
  | some it0 => exact fun it h => (List.eraseP_sublist c.items).mem h

theorem localWF_removeLocal {c : CacheLocal K V} (h : localWF c) (k : K) :
    localWF (removeLocal c k) := by
  obtain ⟨hnd, hsum⟩ := h
  unfold removeLocal
  cases hf : findItem k c.items with
  | none => exact ⟨hnd, hsum⟩
  | some it =>
    refine ⟨nodup_keys_eraseItem hnd, ?_⟩
    simp only
    rw [sumSizes_eraseItem hf, hsum]

theorem mem_keysOf_removeLocal {c : CacheLocal K V} (hnd : (keysOf c).Nodup)
    (k x : K) : x ∈ keysOf (removeLocal c k) ↔ x ∈ keysOf c ∧ x ≠ k := by
  unfold removeLocal
  cases hf : findItem k c.items with
  | none =>
    simp only [keysOf]
    constructor
    · intro hx
      refine ⟨hx, ?_⟩
      rintro rfl
      obtain ⟨it, hit, hkey⟩ := List.mem_map.1 hx
      exact findItem_eq_none_iff.1 hf it hit hkey
    · exact fun hx => hx.1
  | some it => exact mem_keys_eraseItem hnd x

theorem keysOf_restoreHit (c : CacheLocal K V) (k : K) (clock : ℕ) :
    keysOf (restoreHit c k clock) = keysOf c := by
  unfold keysOf restoreHit
  simp only [List.map_map]
  apply List.map_congr_left
  intro it _
  by_cases h : it.key = k <;> simp [h]

theorem sumSizes_restoreHit (c : CacheLocal K V) (k : K) (clock : ℕ) :
    sumSizes (restoreHit c k clock).items = sumSizes c.items := by
  unfold sumSizes restoreHit
  simp only [List.map_map]
  apply congrArg
  apply List.map_congr_left
  intro it _
  by_cases h : it.key = k <;> simp [h]

theorem localWF_restoreHit {c : CacheLocal K V} (h : localWF c) (k : K) (clock : ℕ) :
    localWF (restoreHit c k clock) := by
  obtain ⟨hnd, hsum⟩ := h
  refine ⟨?_, ?_⟩
  · rw [keysOf_restoreHit]
    exact hnd
  · show c.size = _
    rw [sumSizes_restoreHit]
    exact hsum

theorem find?_congrPred {α : Type} (p q : α → Bool) (l : List α)
    (h : ∀ a, p a = q a) : l.find? p = l.find? q := by
  induction l with
  | nil => rfl
  | cons a l ih =>
    by_cases ha : p a = true
    · rw [List.find?_cons_of_pos _ ha, List.find?_cons_of_pos _ ((h a) ▸ ha)]
    · rw [List.find?_cons_of_neg _ ha, List.find?_cons_of_neg _ ((h a) ▸ ha), ih]

theorem findItem_restoreHit (c : CacheLocal K V) (k : K) (clock : ℕ) :
    findItem k (restoreHit c k clock).items = (findItem k c.items).map
      (fun it => { it with access_time := clock, access_count := it.access_count + 1 }) := by
  unfold findItem restoreHit
  simp only
  rw [List.find?_map]
  rw [find?_congrPred _ (fun it : Item K V => decide (it.key = k)) _
    (fun it => by by_cases h : it.key = k <;> simp [h, Function.comp])]
  cases hf : List.find? (fun it : Item K V => decide (it.key = k)) c.items with
  | none => rfl
  | some it =>
    have hk : it.key = k := by simpa using List.find?_some hf
    simp [hk]

theorem sortItems_perm (c : CacheLocal K V) : (sortItems c).items.Perm c.items :=
  List.perm_insertionSort _ _

theorem sortItems_conf (c : CacheLocal K V) : (sortItems c).conf = c.conf := rfl

theorem sortItems_size (c : CacheLocal K V) : (sortItems c).size = c.size := rfl

theorem sumSizes_perm {l₁ l₂ : List (Item K V)} (h : l₁.Perm l₂) :
    sumSizes l₁ = sumSizes l₂ := by
  unfold sumSizes
  exact (h.map _).sum_eq

theorem localWF_sortItems {c : CacheLocal K V} (h : localWF c) : localWF (sortItems c) := by
  obtain ⟨hnd, hsum⟩ := h
  refine ⟨?_, ?_⟩
  · show ((sortItems c).items.map (·.key)).Nodup
    exact (((sortItems_perm c).map (fun it : Item K V => it.key)).nodup_iff).2 hnd
  · rw [sortItems_size, sumSizes_perm (sortItems_perm c)]
    exact hsum

theorem mem_keysOf_sortItems (c : CacheLocal K V) (x : K) :
    x ∈ keysOf (sortItems c) ↔ x ∈ keysOf c :=
  ((sortItems_perm c).map (·.key)).mem_iff

theorem removeKeysLocal_conf (c : CacheLocal K V) (ks : List K) :
    (removeKeysLocal c ks).conf = c.conf := by
  induction ks generalizing c with
  | nil => rfl
  | cons k ks ih =>
    show (removeKeysLocal (removeLocal c k) ks).conf = c.conf
    rw [ih, removeLocal_conf]

theorem removeKeysLocal_size_le (c : CacheLocal K V) (ks : List K) :
    (removeKeysLocal c ks).size ≤ c.size := by
  induction ks generalizing c with
  | nil => exact le_refl _
  | cons k ks ih =>
    exact le_trans (ih (removeLocal c k)) (removeLocal_size_le c k)

theorem removeKeysLocal_items_subset (c : CacheLocal K V) (ks : List K) :
    ∀ it ∈ (removeKeysLocal c ks).items, it ∈ c.items := by
  induction ks generalizing c with
  | nil => exact fun it h => h
  | cons k ks ih =>
    exact fun it h => removeLocal_items_subset c k it (ih (removeLocal c k) it h)

theorem localWF_removeKeysLocal {c : CacheLocal K V} (h : localWF c) (ks : List K) :
    localWF (removeKeysLocal c ks) := by
  induction ks generalizing c with
  | nil => exact h
  | cons k ks ih => exact ih (localWF_removeLocal h k)

/-!
## The victim-selection/eviction core of `trim`
-/

/-- If the projected size already fits, the selection sweep selects nothing
(the running size is only decremented on selection, so the condition stays
false). -/
theorem selectVictims_eq_nil {max : ℚ} {size : ℤ} {extra : ℕ}
    (h : intGtRat (size + (extra : ℤ)) max = false) (L : List (Item K V)) :
    selectVictims max size extra L = [] := by
  induction L with
  | nil => rfl
  | cons it L ih => simp [selectVictims, h, ih]

/-- Selecting victims with the sweep of `trim` and then removing them brings
the cache to a state that still accounts sizes correctly and either fits
under `max_size` (with `extra` headroom) or is empty. -/
theorem select_remove_spec (conf : Config K V) (max : ℚ) (extra : ℕ) :
    ∀ (L : List (Item K V)) (size : ℤ), size = sumSizes L → (L.map (·.key)).Nodup →
      ∃ r : CacheLocal K V,
        removeKeysLocal ⟨conf, size, L⟩ (selectVictims max size extra L) = r ∧
        r.conf = conf ∧ r.size = sumSizes r.items ∧ (r.items.map (·.key)).Nodup ∧
        (∀ it ∈ r.items, it ∈ L) ∧
        (intGtRat (r.size + (extra : ℤ)) max = false ∨ r.items = []) := by
  intro L
  induction L with
  | nil =>
    intro size hsum hnd
    refine ⟨⟨conf, size, []⟩, rfl, rfl, by simpa using hsum, by simp, by simp, Or.inr rfl⟩
  | cons it L ih =>
    intro size hsum hnd
    cases hc : intGtRat (size + (extra : ℤ)) max with
    | false =>
      rw [selectVictims_eq_nil hc]
      exact ⟨⟨conf, size, it :: L⟩, rfl, rfl, hsum, hnd, fun _ h => h, Or.inl hc⟩
    | true =>
      have hsel : selectVictims max size extra (it :: L) =
          it.key :: selectVictims max (size - (it.stored_size : ℤ)) extra L := by
        simp [selectVictims, hc]
      rw [hsel]
      have hremove : removeLocal ⟨conf, size, it :: L⟩ it.key =
          ⟨conf, size - (it.stored_size : ℤ), L⟩ := by
        unfold removeLocal
        have hfind : findItem it.key (it :: L) = some it :=
          List.find?_cons_of_pos _ (by simp)
        rw [hfind]
        have herase : eraseItem it.key (it :: L) = L := by
          unfold eraseItem
          rw [List.eraseP_cons]
          simp
        simp [herase]
      have hstep : removeKeysLocal (⟨conf, size, it :: L⟩ : CacheLocal K V)
          (it.key :: selectVictims max (size - (it.stored_size : ℤ)) extra L) =
          removeKeysLocal ⟨conf, size - (it.stored_size : ℤ), L⟩
            (selectVictims max (size - (it.stored_size : ℤ)) extra L) := by
        show removeKeysLocal (removeLocal ⟨conf, size, it :: L⟩ it.key) _ = _
        rw [hremove]
      rw [hstep]
      have hsum' : size - (it.stored_size : ℤ) = sumSizes L := by
        have : sumSizes (it :: L) = (it.stored_size : ℤ) + sumSizes L := by
          unfold sumSizes
          simp
        omega
      obtain ⟨r, hr, hconf, hrsum, hrnd, hmem, hfit⟩ :=
        ih (size - (it.stored_size : ℤ)) hsum' (List.nodup_cons.1 hnd).2
      exact ⟨r, hr, hconf, hrsum, hrnd, fun x hx => List.mem_cons_of_mem _ (hmem x hx), hfit⟩

/-!
## Singleton-chain (parentless cache) characterizations
-/

/-- Every one-tier chain is a `cons` of its head over `nil`. -/
theorem chain_one_eta (ch : Chain K V 1) : ch = .cons (Chain.head ch) .nil := by
  cases ch with
  | cons c rest =>
    cases rest with
    | nil => rfl

/-- On a parentless cache the eviction loop of `trim` just removes the
selected keys one by one (no promotion, no clock movement, no failure). -/
theorem evictGo_singleton (tr : V → Bool)
    (putP : Chain K V 0 → K → V → ℕ → Except Unit (Chain K V 0 × ℕ))
    (c : CacheLocal K V) (ks : List K) (cl : ℕ) :
    evictGo tr putP (.cons c .nil) ks cl = .ok (.cons (removeKeysLocal c ks) .nil, cl) := by
  induction ks generalizing c with
  | nil => rfl
  | cons k ks ih =>
    show evictGo tr putP (.cons (removeLocal c k) .nil) ks cl = _
    exact ih (removeLocal c k)

/-- `trim` on a parentless cache: sort, select, remove. -/
theorem trimGo_singleton (tr : V → Bool)
    (putP : Chain K V 0 → K → V → ℕ → Except Unit (Chain K V 0 × ℕ))
    (c : CacheLocal K V) (extra : ℕ) (cl : ℕ) :
    trimGo tr putP (.cons c .nil) extra cl =
      .ok (.cons (removeKeysLocal (sortItems c)
        (selectVictims (maxSize c.conf) c.size extra (sortItems c).items)) .nil, cl) := by
  unfold trimGo
  exact evictGo_singleton tr putP (sortItems c) _ cl

/-- `get_value` on a parentless cache: a hit refreshes the access fields and
returns the stored value; a miss returns `None`; no failure is possible. -/
theorem get_value_singleton (tr : V → Bool) (c : CacheLocal K V) (k : K) (cl : ℕ) :
    get_value tr (.cons c .nil) k cl =
      (match findItem k c.items with
       | some it => .ok (some it.stored_value, .cons (restoreHit c k cl) .nil, cl + 1)
       | none => .ok (none, .cons c .nil, cl)) := by
  cases hf : findItem k c.items <;> simp [get_value, hf]

/-- `put_value` on a parentless cache computes `putLocal1` and advances the
clock by exactly one (the single `access()` in `Item.store`). -/
theorem put_value_singleton (tr : V → Bool) (c : CacheLocal K V) (k : K) (v : V)
    (cl : ℕ) :
    put_value tr (.cons c .nil) k v cl = .ok (.cons (putLocal1 c k v cl) .nil, cl + 1) := by
  show putGo tr (put_value tr) (.cons c .nil) k v cl = _
  unfold putGo putLocal1
  simp only [mkStoredItem, Item.access]
  cases hc : intGtRat ((removeLocal c k).size + (c.conf.sizeFn k v : ℤ)) (maxSize c.conf) with
  | false =>
    rw [show remove_value (.nil : Chain K V 0) k = .nil from rfl]
    simp [hc]
  | true =>
    rw [show remove_value (.nil : Chain K V 0) k = .nil from rfl]
    simp only [hc, if_true]
    rw [trimGo_singleton]
    rfl

/-- Appending a fresh item (as `_add_item` does after `put_value` accounts
it) preserves well-formedness. -/
theorem localWF_appendItem {c : CacheLocal K V} (hwf : localWF c) {it : Item K V}
    (hk : it.key ∉ keysOf c) :
    localWF { c with size := c.size + (it.stored_size : ℤ), items := c.items ++ [it] } := by
  constructor
  · show ((c.items ++ [it]).map (·.key)).Nodup
    rw [List.map_append, List.nodup_append]
    refine ⟨hwf.1, by simp, ?_⟩
    intro x hx hx2
    simp at hx2
    subst hx2
    exact hk hx
  · show c.size + (it.stored_size : ℤ) = sumSizes (c.items ++ [it])
    rw [sumSizes_append, hwf.2]
    unfold sumSizes
    simp

/-- Looking up a key in a list ending in a fresh item with that key finds
exactly that item. -/
theorem findItem_append_fresh {k : K} {X : List (Item K V)}
    (hX : ∀ j ∈ X, j.key ≠ k) (it : Item K V) (hk : it.key = k) :
    findItem k (X ++ [it]) = some it := by
  unfold findItem
  rw [List.find?_append]
  rw [List.find?_eq_none.2 (fun j hj => by simpa using hX j hj)]
  simp [hk]

/-- `put_value` on a parentless cache preserves well-formedness, keeps the
configuration, and — whenever the new item itself fits under `max_size` —
re-establishes the capacity bound (trim makes room or empties the cache). -/
theorem putLocal1_spec {c : CacheLocal K V} (hwf : localWF c) (k : K) (v : V) (cl : ℕ) :
    localWF (putLocal1 c k v cl) ∧ (putLocal1 c k v cl).conf = c.conf ∧
    (((c.conf.sizeFn k v : ℤ) : ℚ) ≤ maxSize c.conf →
      ((putLocal1 c k v cl).size : ℚ) ≤ maxSize c.conf) := by
  have hwf1 : localWF (removeLocal c k) := localWF_removeLocal hwf k
  have hcc : (removeLocal c k).conf = c.conf := removeLocal_conf c k
  have hnotin : k ∉ keysOf (removeLocal c k) := by
    intro hx
    exact ((mem_keysOf_removeLocal hwf.1 k k).1 hx).2 rfl
  unfold putLocal1
  simp only
  cases hc : intGtRat ((removeLocal c k).size + ((c.conf.sizeFn k v : ℕ) : ℤ))
      (maxSize c.conf) with
  | false =>
    simp only [hc, Bool.false_eq_true, if_false]
    refine ⟨localWF_appendItem hwf1 hnotin, hcc, ?_⟩
    intro _
    have hle := (intGtRat_eq_false_iff _ _).1 hc
    push_cast at hle ⊢
    exact hle
  | true =>
    simp only [hc, if_true]
    have hwfs : localWF (sortItems (removeLocal c k)) := localWF_sortItems hwf1
    obtain ⟨r, hr, hconf, hrsum, hrnd, hmem, hfit⟩ :=
      select_remove_spec (removeLocal c k).conf (maxSize (removeLocal c k).conf)
        (c.conf.sizeFn k v) (sortItems (removeLocal c k)).items
        (removeLocal c k).size hwfs.2 hwfs.1
    rw [hcc] at hconf hfit
    have hrknot : k ∉ keysOf r := by
      intro hx
      obtain ⟨it, hit, hkey⟩ := List.mem_map.1 hx
      have hsorted : it ∈ (sortItems (removeLocal c k)).items := hmem it hit
      have hmem2 : it.key ∈ keysOf (removeLocal c k) := by
        rw [← mem_keysOf_sortItems]
        exact List.mem_map_of_mem _ hsorted
      exact hnotin (hkey ▸ hmem2)
    rw [show (⟨(removeLocal c k).conf, (removeLocal c k).size,
        (sortItems (removeLocal c k)).items⟩ : CacheLocal K V) =
        sortItems (removeLocal c k) from rfl] at hr
    rw [hr]
    refine ⟨localWF_appendItem ⟨hrnd, hrsum⟩ hrknot, hconf, ?_⟩
    intro hb
    rcases hfit with hfit | hfit
    · have hle := (intGtRat_eq_false_iff _ _).1 hfit
      push_cast at hle ⊢
      exact hle
    · have hr0 : r.size = 0 := by
        rw [hrsum, hfit]
        rfl
      show ((r.size + (c.conf.sizeFn k v : ℤ) : ℤ) : ℚ) ≤ _
      rw [hr0]
      push_cast at hb ⊢
      simpa using hb

/-- After `put_value(k, v)` on a parentless well-formed cache, `k` is
resident and its item is exactly the freshly stored one (in particular its
stored value is `v`). -/
theorem findItem_putLocal1 {c : CacheLocal K V} (hwf : localWF c) (k : K) (v : V)
    (cl : ℕ) :
    findItem k (putLocal1 c k v cl).items = some (mkStoredItem c.conf k v cl).1 := by
  have hnotin : k ∉ keysOf (removeLocal c k) := by
    intro hx
    exact ((mem_keysOf_removeLocal hwf.1 k k).1 hx).2 rfl
  unfold putLocal1
  simp only
  cases hc : intGtRat ((removeLocal c k).size + ((c.conf.sizeFn k v : ℕ) : ℤ))
      (maxSize c.conf) with
  | false =>
    simp only [hc, Bool.false_eq_true, if_false]
    refine findItem_append_fresh ?_ _ rfl
    intro j hj he
    have hjk : j.key ∈ keysOf (removeLocal c k) := List.mem_map_of_mem _ hj
    rw [he] at hjk
    exact hnotin hjk
  | true =>
    simp only [hc, if_true]
    refine findItem_append_fresh ?_ _ rfl
    intro j hj he
    have hj2 : j ∈ (sortItems (removeLocal c k)).items :=
      removeKeysLocal_items_subset (sortItems (removeLocal c k)) _ j hj
    have hjk : j.key ∈ keysOf (removeLocal c k) := by
      rw [← mem_keysOf_sortItems]
      exact List.mem_map_of_mem _ hj2
    exact hnotin (he ▸ hjk)

/-- The per-key loop of `clear` on a parentless cache just removes the keys
one by one. -/
theorem clearKeys_singleton (tr : V → Bool) (b : Bool) (c : CacheLocal K V)
    (ks : List K) (cl : ℕ) :
    clearKeys tr b (.cons c .nil) ks cl = .ok (.cons (removeKeysLocal c ks) .nil, cl) := by
  induction ks generalizing c with
  | nil => rfl
  | cons k ks ih =>
    show clearKeys tr b (.cons (removeLocal c k) .nil) ks cl = _
    exact ih (removeLocal c k)

/-- `clear` on a parentless cache removes every resident key. -/
theorem clear_singleton (tr : V → Bool) (c : CacheLocal K V) (b : Bool) (cl : ℕ) :
    clear tr (.cons c .nil) b cl = .ok (.cons (removeKeysLocal c (keysOf c)) .nil, cl) :=
  clearKeys_singleton tr b c (keysOf c) cl

/-- One public operation on a parentless cache: well-formedness is
preserved, the configuration is unchanged, and the capacity bound is
preserved (and re-established by `put_value`) whenever the store's sizes fit
under `max_size`. -/
theorem runOp_singleton_spec (tr : V → Bool) (op : Op K V) {c : CacheLocal K V}
    {cl : ℕ} {ch' : Chain K V 1} {cl' : ℕ} (hwf : localWF c)
    (h : runOp tr op (.cons c .nil) cl = .ok (ch', cl')) :
    localWF (Chain.head ch') ∧ (Chain.head ch').conf = c.conf ∧
    (boundedSizes c.conf → (c.size : ℚ) ≤ maxSize c.conf →
      ((Chain.head ch').size : ℚ) ≤ maxSize c.conf) := by
  have hcast : ∀ a b : ℤ, a ≤ b → (a : ℚ) ≤ (b : ℚ) := fun a b hab => by
    exact_mod_cast hab
  cases op with
  | put k v =>
    simp only [runOp] at h
    rw [put_value_singleton] at h
    injection h with h1
    injection h1 with h2 h3
    subst h2
    obtain ⟨hwf', hconf', hbound'⟩ := putLocal1_spec hwf k v cl
    exact ⟨hwf', hconf', fun hb _ => hbound' (hb k v)⟩
  | remove k =>
    simp only [runOp] at h
    rw [show remove_value (.cons c (.nil : Chain K V 0)) k =
      .cons (removeLocal c k) .nil from rfl] at h
    injection h with h1
    injection h1 with h2 h3
    subst h2
    refine ⟨localWF_removeLocal hwf k, removeLocal_conf c k, fun _ hb => ?_⟩
    exact le_trans (hcast _ _ (removeLocal_size_le c k)) hb
  | get k =>
    simp only [runOp] at h
    rw [get_value_singleton] at h
    cases hf : findItem k c.items with
    | some it =>
      rw [hf] at h
      simp only at h
      injection h with h1
      injection h1 with h2 h3
      subst h2
      exact ⟨localWF_restoreHit hwf k cl, rfl, fun _ hb => hb⟩
    | none =>
      rw [hf] at h
      simp only at h
      injection h with h1
      injection h1 with h2 h3
      subst h2
      exact ⟨hwf, rfl, fun _ hb => hb⟩
  | trimBy extra =>
    simp only [runOp, trim] at h
    rw [trimGo_singleton] at h
    injection h with h1
    injection h1 with h2 h3
    subst h2
    simp only [Chain.head]
    refine ⟨localWF_removeKeysLocal (localWF_sortItems hwf) _, ?_, fun _ hb => ?_⟩
    · rw [removeKeysLocal_conf, sortItems_conf]
    · refine le_trans (hcast _ _ ?_) hb
      exact le_trans (removeKeysLocal_size_le _ _) (le_of_eq (sortItems_size c))
  | clearWith b =>
    simp only [runOp] at h
    rw [clear_singleton] at h
    injection h with h1
    injection h1 with h2 h3
    subst h2
    simp only [Chain.head]
    refine ⟨localWF_removeKeysLocal hwf _, removeKeysLocal_conf c _, fun _ hb => ?_⟩
    exact le_trans (hcast _ _ (removeKeysLocal_size_le c _)) hb

/-- A completed sequence of public operations on a parentless cache keeps it
well-formed, keeps the configuration, and preserves the capacity bound when
the store's sizes fit under `max_size`. -/
theorem runOps_singleton_spec (tr : V → Bool) (ops : List (Op K V)) :
    ∀ (c : CacheLocal K V) (cl : ℕ) (ch' : Chain K V 1) (cl' : ℕ), localWF c →
      runOps tr ops (.cons c .nil) cl = .ok (ch', cl') →
      localWF (Chain.head ch') ∧ (Chain.head ch').conf = c.conf ∧
      (boundedSizes c.conf → (c.size : ℚ) ≤ maxSize c.conf →
        ((Chain.head ch').size : ℚ) ≤ maxSize c.conf) := by
  induction ops with
  | nil =>
    intro c cl ch' cl' hwf h
    injection h with h1
    injection h1 with h2 h3
    subst h2
    exact ⟨hwf, rfl, fun _ hb => hb⟩
  | cons op ops ih =>
    intro c cl ch' cl' hwf h
    simp only [runOps] at h
    cases h1 : runOp tr op (.cons c .nil) cl with
    | error e =>
      rw [h1] at h
      cases h
    | ok p =>
      obtain ⟨ch1, cl1⟩ := p
      rw [h1] at h
      simp only at h
      obtain ⟨hwf1, hconf1, hbound1⟩ := runOp_singleton_spec tr op hwf h1
      rw [chain_one_eta ch1] at h
      obtain ⟨hwf2, hconf2, hbound2⟩ := ih (Chain.head ch1) cl1 ch' cl' hwf1 h
      refine ⟨hwf2, hconf2.trans hconf1, fun hb hsz => ?_⟩
      rw [hconf1] at hbound2
      exact hbound2 hb (hbound1 hb hsz)

/-- C1, amended.  For a quiescent (single-threaded) parentless cache built
with any store and configuration, after any completed sequence of
`put_value` / `remove_value` / `get_value` / `trim` operations (and `clear`),
the reported `size` equals the sum of `stored_size` over all resident items;
and provided every storable value fits under `max_size = capacity·threshold`
(and `max_size` is non-negative, as any documented threshold makes it), the
size never exceeds `max_size`.  The size/sum equality needs no side
condition; the capacity bound genuinely needs the fit condition, see
`cache_size_bound_cex`. -/
theorem cache_size_invariant (tr : V → Bool) (conf : Config K V)
    (ops : List (Op K V)) (ch' : Chain K V 1) (cl' : ℕ)
    (hrun : runOps tr ops (initChain1 conf) 0 = .ok (ch', cl')) :
    (Chain.head ch').size = sumSizes (Chain.head ch').items ∧
    (boundedSizes conf → 0 ≤ maxSize conf →
      ((Chain.head ch').size : ℚ) ≤ maxSize conf) := by
  have hwf0 : localWF (initLocal conf) := ⟨List.nodup_nil, rfl⟩
  obtain ⟨hwf, hconf, hbound⟩ :=
    runOps_singleton_spec tr ops (initLocal conf) 0 ch' cl' hwf0 hrun
  refine ⟨hwf.2, fun hb h0 => ?_⟩
  exact hbound hb (by simpa using h0)

/-- C1, counterexample to the unconditional capacity bound.  With the
default `MemoryCacheStore` (every item has size 1), capacity 1 and the
documented threshold 0.5, `max_size = 0.5`; after the completed single
operation `put_value("a", 7)` the cache's size is 1, which exceeds
`max_size` — and stays there, the cache being quiescent. -/
theorem cache_size_bound_cex :
    (runOps natTruthy [Op.put "a" 7] (initChain1 c1CexConf) 0).map
      (fun p => (Chain.head p.1).size) = .ok 1 ∧
    maxSize c1CexConf < ((1 : ℤ) : ℚ) := by
  refine ⟨rfl, (intGtRat_iff 1 (maxSize c1CexConf)).1 rfl⟩

/-- Witness for `cache_size_invariant`: capacity 3, threshold 1, unit store,
one put — size 1 = sum of sizes, and 1 ≤ 3 = max_size. -/
theorem cache_size_invariant_witness :
    (Chain.head (Chain.cons (⟨unitLRU 3 1, 1, [⟨"a", 5, 1, 0, 0, 1⟩]⟩ : CacheLocal String ℕ)
        Chain.nil)).size =
      sumSizes (Chain.head (Chain.cons (⟨unitLRU 3 1, 1, [⟨"a", 5, 1, 0, 0, 1⟩]⟩ : CacheLocal String ℕ)
        Chain.nil)).items ∧
    (boundedSizes (unitLRU 3 1) → 0 ≤ maxSize (unitLRU 3 1) →
      ((Chain.head (Chain.cons (⟨unitLRU 3 1, 1, [⟨"a", 5, 1, 0, 0, 1⟩]⟩ : CacheLocal String ℕ)
        Chain.nil)).size : ℚ) ≤ maxSize (unitLRU 3 1)) :=
  cache_size_invariant natTruthy (unitLRU 3 1) [Op.put "a" 5] _ 1 rfl

/-!
## C8 — `OpImage.get_tile` memoization
-/

/-- C8, counterexample.  The claim quantifies over any `OpImage` with a
cache attached; but the cache-hit test is `if tile is not None`, so when
`compute_tile` returns `None` the stored `None` is indistinguishable from a
miss: the payloads of two successive calls are (referentially) equal, yet
the second call invokes `compute_tile` again — once, not zero times. -/
theorem get_tile_none_recomputes :
    ((opImage_get_tile tileTruthy "img" 4 4 (fun _ _ _ => none)
        (initChain1 tileCacheConf) 0 0 0).bind
      (fun r => opImage_get_tile tileTruthy "img" 4 4 (fun _ _ _ => none)
        r.2.1 r.2.2.1 0 0)).map (fun r => r.2.2.2) = .ok 1 ∧
    ¬(((opImage_get_tile tileTruthy "img" 4 4 (fun _ _ _ => none)
        (initChain1 tileCacheConf) 0 0 0).bind
      (fun r => opImage_get_tile tileTruthy "img" 4 4 (fun _ _ _ => none)
        r.2.1 r.2.2.1 0 0)).map (fun r => r.2.2.2) = .ok 0) := by
  constructor
  · rfl
  · intro h
    rw [show ((opImage_get_tile tileTruthy "img" 4 4 (fun _ _ _ => none)
        (initChain1 tileCacheConf) 0 0 0).bind
      (fun r => opImage_get_tile tileTruthy "img" 4 4 (fun _ _ _ => none)
        r.2.1 r.2.2.1 0 0)).map (fun r => r.2.2.2) = Except.ok 1 from rfl] at h
    simp at h

/-- C8, amended.  For any `OpImage` over a well-formed parentless cache with
the identity-value store, if a `get_tile(x, y)` call completes with a
non-`None` payload `t`, then the immediately following `get_tile(x, y)` call
returns the very same payload `t` (with `MemoryCacheStore` the stored object
is returned unchanged, so equality is reference equality) and invokes
`compute_tile` zero times. -/
theorem get_tile_memoized {T : Type} (trT : Option T → Bool) (image_id : String)
    (tw th : ℕ) (compute_tile : ℕ → ℕ → ℕ × ℕ × ℕ × ℕ → Option T)
    (c : CacheLocal String (Option T)) (cl x y : ℕ) (v1 : Option T)
    (st1 : Chain String (Option T) 1) (cl1 cnt1 : ℕ) (t : T)
    (hwf : localWF c)
    (h1 : opImage_get_tile trT image_id tw th compute_tile (.cons c .nil) cl x y =
      .ok (v1, st1, cl1, cnt1))
    (hv : v1 = some t) :
    (opImage_get_tile trT image_id tw th compute_tile st1 cl1 x y).map
      (fun r => (r.1, r.2.2.2)) = .ok (some t, 0) := by
  subst hv
  unfold opImage_get_tile at h1 ⊢
  simp only [] at h1 ⊢
  rw [get_value_singleton] at h1
  cases hf : findItem (get_tile_id image_id x y) c.items with
  | some it =>
    rw [hf] at h1
    simp only [] at h1
    cases hsv : it.stored_value with
    | some t0 =>
      rw [hsv] at h1
      simp only [] at h1
      injection h1 with h1a
      injection h1a with hval h1b
      injection h1b with hst h1c
      injection h1c with hcl hcnt
      subst hst
      subst hcl
      injection hval with hval2
      rw [get_value_singleton, findItem_restoreHit, hf]
      simp only [Option.map, hsv, hval2]
      rfl
    | none =>
      rw [hsv] at h1
      simp only [] at h1
      rw [put_value_singleton] at h1
      injection h1 with h1a
      injection h1a with hval h1b
      injection h1b with hst h1c
      injection h1c with hcl hcnt
      subst hst
      subst hcl
      rw [get_value_singleton, findItem_putLocal1 (localWF_restoreHit hwf _ _) _ _ _]
      simp only [mkStoredItem, Item.access, hval]
      rfl
  | none =>
    rw [hf] at h1
    simp only [] at h1
    rw [put_value_singleton] at h1
    injection h1 with h1a
    injection h1a with hval h1b
    injection h1b with hst h1c
    injection h1c with hcl hcnt
    subst hst
    subst hcl
    rw [get_value_singleton, findItem_putLocal1 hwf _ _ _]
    simp only [mkStoredItem, Item.access, hval]
    rfl

/-- Witness for `get_tile_memoized`: a fresh unit cache, a `compute_tile`
returning 5, first call computes and stores, second call returns 5 from the
cache with zero `compute_tile` invocations. -/
theorem get_tile_memoized_witness :
    (opImage_get_tile tileTruthy "img" 4 4 (fun _ _ _ => some 5)
        (Chain.cons (putLocal1 (initLocal tileCacheConf) (get_tile_id "img" 0 0) (some 5) 0)
          Chain.nil) 1 0 0).map (fun r => (r.1, r.2.2.2)) = .ok (some 5, 0) :=
  get_tile_memoized tileTruthy "img" 4 4 (fun _ _ _ => some 5)
    (initLocal tileCacheConf) 0 0 0 (some 5) _ 1 1 5 ⟨List.nodup_nil, rfl⟩ rfl rfl

/-!
## C5 — LRU eviction scenario
-/

/-- Splitting a run of operations. -/
theorem runOps_append (tr : V → Bool) {n : ℕ} (ops1 ops2 : List (Op K V))
    (ch : Chain K V n) (cl : ℕ) :
    runOps tr (ops1 ++ ops2) ch cl =
      (match runOps tr ops1 ch cl with
       | .error e => .error e
       | .ok (ch1, cl1) => runOps tr ops2 ch1 cl1) := by
  induction ops1 generalizing ch cl with
  | nil => rfl
  | cons op ops1 ih =>
    simp only [List.cons_append, runOps]
    cases h : runOp tr op ch cl with
    | error e => simp only [h]
    | ok p =>
      obtain ⟨ch1, cl1⟩ := p
      simp only [h]
      exact ih ch1 cl1

/-- `remove_value` of an absent key leaves the tier unchanged. -/
theorem removeLocal_none {c : CacheLocal K V} {k : K}
    (h : findItem k c.items = none) : removeLocal c k = c := by
  unfold removeLocal
  rw [h]

/-- Inserting an element that is `r`-below the whole list puts it in front. -/
theorem orderedInsert_of_forall_r (r : α → α → Prop) [DecidableRel r] (a : α)
    (l : List α) (h : ∀ b ∈ l, r a b) : l.orderedInsert r a = a :: l := by
  cases l with
  | nil => rfl
  | cons b l =>
    show (if r a b then a :: b :: l else b :: List.orderedInsert r a l) = _
    rw [if_pos (h b (List.mem_cons_self b l))]

/-- Inserting an element that is `r`-above the whole list puts it at the
end. -/
theorem orderedInsert_of_forall_not (r : α → α → Prop) [DecidableRel r] (a : α) :
    ∀ (l : List α), (∀ b ∈ l, ¬r a b) → l.orderedInsert r a = l ++ [a] := by
  intro l
  induction l with
  | nil => intro _; rfl
  | cons b l ih =>
    intro h
    show (if r a b then a :: b :: l else b :: List.orderedInsert r a l) = _
    rw [if_neg (h b (List.mem_cons_self b l)), ih (fun x hx => h x (List.mem_cons_of_mem b hx))]
    rfl

/-- `max_size` of the C5 configuration is exactly `N`. -/
theorem maxSize_lruUnitConf (N : ℕ) : maxSize (lruUnitConf N : Config K V) = (N : ℚ) := by
  rw [maxSize_eq]
  show (N : ℚ) * (1 : ℚ) = (N : ℚ)
  rw [mul_one]

/-- `a ≤ N` as integers means the projected size fits under `max_size = N`. -/
theorem intGtRat_le_nat {a N : ℕ} (h : a ≤ N) :
    intGtRat ((a : ℕ) : ℤ) ((N : ℕ) : ℚ) = false := by
  rw [intGtRat_eq_false_iff]
  push_cast
  exact_mod_cast h

/-- `N + 1` strictly exceeds `max_size = N`. -/
theorem intGtRat_succ_nat (N : ℕ) :
    intGtRat (((N : ℕ) : ℤ) + 1) ((N : ℕ) : ℚ) = true := by
  rw [intGtRat_iff]
  push_cast
  exact lt_add_one _

/-- `put_value` of a fresh, fitting key appends the freshly stored item. -/
theorem putLocal1_fresh {c : CacheLocal K V} {k : K} (v : V) (cl : ℕ)
    (hfind : findItem k c.items = none)
    (hfit : intGtRat (c.size + ((c.conf.sizeFn k v : ℕ) : ℤ)) (maxSize c.conf) = false) :
    putLocal1 c k v cl =
      { c with
          size := c.size + ((c.conf.sizeFn k v : ℕ) : ℤ),
          items := c.items ++
            [{ key := k, stored_value := v, stored_size := c.conf.sizeFn k v,
               creation_time := 0, access_time := cl, access_count := 1 }] } := by
  unfold putLocal1
  rw [removeLocal_none hfind]
  simp only [hfit, Bool.false_eq_true, if_false]

/-- After the first `N` puts of the C5 scenario (no eviction happens: the
cache fills to exactly its capacity), the items sit in insertion order with
access times `0, 1, …`. -/
theorem lru_puts_state (tr : V → Bool) (key : ℕ → K) (v : ℕ → V) (N : ℕ)
    (hinj : ∀ i j, i ≤ N → j ≤ N → key i = key j → i = j) :
    ∀ j, j ≤ N → runOps tr ((List.range j).map (fun i => Op.put (key i) (v i)))
        (initChain1 (lruUnitConf N)) 0 =
      .ok (.cons
        { conf := lruUnitConf N, size := (j : ℤ),
          items := (List.range j).map (fun i =>
            { key := key i, stored_value := v i, stored_size := 1, creation_time := 0,
              access_time := i, access_count := 1 }) } .nil, j) := by
  intro j
  induction j with
  | zero => intro _; rfl
  | succ j ih =>
    intro hj
    rw [List.range_succ, List.map_append, runOps_append, ih (Nat.le_of_succ_le hj)]
    simp only [List.map_cons, List.map_nil, runOps, runOp]
    rw [put_value_singleton]
    have hfind : findItem (key j) ((List.range j).map (fun i =>
        ({ key := key i, stored_value := v i, stored_size := 1, creation_time := 0,
           access_time := i, access_count := 1 } : Item K V))) = none := by
      rw [findItem_eq_none_iff]
      intro it hit
      obtain ⟨i, hi, rfl⟩ := List.mem_map.1 hit
      have hilt : i < j := List.mem_range.1 hi
      intro hkeq
      have := hinj i j (by omega) (by omega) hkeq
      omega
    have hfit : intGtRat (((j : ℕ) : ℤ) +
        (((lruUnitConf N : Config K V).sizeFn (key j) (v j) : ℕ) : ℤ))
        (maxSize (lruUnitConf N : Config K V)) = false := by
      rw [maxSize_lruUnitConf]
      have : ((j : ℕ) : ℤ) + (((lruUnitConf N : Config K V).sizeFn (key j) (v j) : ℕ) : ℤ) =
          (((j + 1 : ℕ) : ℕ) : ℤ) := by
        show (j : ℤ) + ((1 : ℕ) : ℤ) = _
        push_cast
        ring
      rw [this]
      exact intGtRat_le_nat hj
    rw [putLocal1_fresh (v j) j hfind hfit]
    simp only [runOps, List.map_append, List.map_cons, List.map_nil, lruUnitConf,
      memoryCacheStoreSize]
    push_cast
    rfl

/-- `get_value` hitting the first item of the list. -/
theorem get_value_hit_head (tr : V → Bool) {c : CacheLocal K V} {k : K}
    {it0 : Item K V} {rest : List (Item K V)} (hitems : c.items = it0 :: rest)
    (hk : it0.key = k) (cl : ℕ) :
    get_value tr (.cons c .nil) k cl =
      .ok (some it0.stored_value, .cons (restoreHit c k cl) .nil, cl + 1) := by
  rw [get_value_singleton]
  have hfind : findItem k c.items = some it0 := by
    rw [hitems]
    exact List.find?_cons_of_pos _ (by simp [hk])
  rw [hfind]

/-- `item.restore` on the head item leaves the tail untouched when no other
item shares the key. -/
theorem restoreHit_cons_head {c : CacheLocal K V} {k : K} {it0 : Item K V}
    {rest : List (Item K V)} (hitems : c.items = it0 :: rest) (hk : it0.key = k)
    (hrest : ∀ it ∈ rest, it.key ≠ k) (cl : ℕ) :
    (restoreHit c k cl).items =
      { it0 with access_time := cl, access_count := it0.access_count + 1 } :: rest := by
  unfold restoreHit
  rw [hitems]
  simp only [List.map_cons]
  rw [if_pos hk]
  rw [List.map_congr_left (fun it hit => if_neg (hrest it hit))]
  simp

/-- Evaluation of the stable sort when the head is strictly above an already
sorted tail: it moves to the end. -/
theorem sortItems_eval {c : CacheLocal K V} {it0 it1 : Item K V}
    {rest : List (Item K V)} (hitems : c.items = it0 :: it1 :: rest)
    (hsorted : List.Sorted (fun a b => c.conf.policy a ≤ c.conf.policy b) (it1 :: rest))
    (hbig : ∀ b ∈ it1 :: rest, ¬(c.conf.policy it0 ≤ c.conf.policy b)) :
    (sortItems c).items = (it1 :: rest) ++ [it0] := by
  unfold sortItems
  simp only
  rw [hitems]
  rw [List.insertionSort]
  rw [List.Sorted.insertionSort_eq hsorted]
  exact orderedInsert_of_forall_not _ it0 (it1 :: rest) hbig

/-- The selection sweep picks exactly the head when evicting it makes the
projected size fit. -/
theorem selectVictims_head_only {max : ℚ} {size : ℤ} {extra : ℕ}
    {it1 : Item K V} {rest : List (Item K V)}
    (h1 : intGtRat (size + (extra : ℤ)) max = true)
    (h2 : intGtRat (size - ((it1.stored_size : ℕ) : ℤ) + (extra : ℤ)) max = false) :
    selectVictims max size extra (it1 :: rest) = [it1.key] := by
  simp only [selectVictims, h1, if_true]
  rw [selectVictims_eq_nil h2]

/-- Removing a single key that heads the item list. -/
theorem removeKeysLocal_head {c : CacheLocal K V} {it1 : Item K V}
    {rest : List (Item K V)} (hitems : c.items = it1 :: rest) {k : K}
    (hk : it1.key = k) :
    removeKeysLocal c [k] =
      { c with items := rest, size := c.size - ((it1.stored_size : ℕ) : ℤ) } := by
  show removeLocal c k = _
  unfold removeLocal
  have hfind : findItem k c.items = some it1 := by
    rw [hitems]
    exact List.find?_cons_of_pos _ (by simp [hk])
  rw [hfind]
  have herase : eraseItem k c.items = rest := by
    rw [hitems]
    unfold eraseItem
    rw [List.eraseP_cons]
    simp [hk]
  rw [herase]

/-- C5.  With a unit-size store, capacity `N ≥ 2`, threshold 1.0 and the LRU
policy, after inserting `N` distinct keys `key 0 … key (N−1)` (filling the
cache exactly), getting `key 0` and then putting the fresh key `key N`, the
resident keys are exactly `key 2 … key (N−1), key 0, key N`: the victim is
`key 1` (the least recently used), not `key 0` (whose access was refreshed).
At `N = 3` with keys a, b, c, d this is the scenario
put a, put b, put c, get a, put d → residents {a, c, d}, b evicted. -/
theorem lru_eviction (tr : V → Bool) (key : ℕ → K) (v : ℕ → V) (N : ℕ) (newV : V)
    (hinj : ∀ i j, i ≤ N → j ≤ N → key i = key j → i = j) (hN : 2 ≤ N) :
    ∃ ch' cl', runOps tr (lruScenarioOps key v N newV)
        (initChain1 (lruUnitConf N)) 0 = .ok (ch', cl') ∧
      keysOf (Chain.head ch') = ((List.range' 2 (N - 2)).map key) ++ [key 0, key N] ∧
      key 1 ∉ keysOf (Chain.head ch') ∧ key 0 ∈ keysOf (Chain.head ch') := by
  obtain ⟨M, rfl⟩ : ∃ M, N = M + 2 := ⟨N - 2, by omega⟩
  have hrange : List.range (M + 2) = 0 :: 1 :: List.range' 2 M := by
    rw [List.range_eq_range', List.range'_succ, List.range'_succ]
  have hputs := lru_puts_state tr key v (M + 2) hinj (M + 2) le_rfl
  rw [show lruScenarioOps key v (M + 2) newV =
      ((List.range (M + 2)).map (fun i => Op.put (key i) (v i))) ++
        [Op.get (key 0), Op.put (key (M + 2)) newV] from rfl,
    runOps_append, hputs]
  set f : ℕ → Item K V := (fun i =>
    { key := key i, stored_value := v i, stored_size := 1, creation_time := 0,
      access_time := i, access_count := 1 }) with hf
  set cN : CacheLocal K V :=
    ⟨lruUnitConf (M + 2), ((M + 2 : ℕ) : ℤ), (List.range (M + 2)).map f⟩ with hcN
  set tail : List (Item K V) := (List.range' 2 M).map f with htail
  set g0 : Item K V := ⟨key 0, v 0, 1, 0, M + 2, 2⟩ with hg0
  simp only [runOps, runOp]
  have hitems : cN.items = f 0 :: f 1 :: tail := by
    show (List.range (M + 2)).map f = f 0 :: f 1 :: tail
    rw [hrange, htail]
    rfl
  have hrest : ∀ it ∈ f 1 :: tail, it.key ≠ key 0 := by
    intro it hit
    rcases List.mem_cons.1 hit with h | h
    · subst h
      intro hkeq
      have := hinj 1 0 (by omega) (by omega) hkeq
      omega
    · rw [htail] at h
      obtain ⟨i, hi, rfl⟩ := List.mem_map.1 h
      have hib := List.mem_range'_1.1 hi
      intro hkeq
      have := hinj i 0 (by omega) (by omega) hkeq
      omega
  rw [get_value_hit_head tr hitems (show (f 0).key = key 0 from rfl) (M + 2)]
  simp only []
  set c2 : CacheLocal K V := restoreHit cN (key 0) (M + 2) with hc2def
  rw [put_value_singleton]
  simp only []
  have hc2 : c2.items = g0 :: f 1 :: tail :=
    restoreHit_cons_head hitems (show (f 0).key = key 0 from rfl) hrest (M + 2)
  have hfindN : findItem (key (M + 2)) c2.items = none := by
    rw [hc2, findItem_eq_none_iff]
    intro it hit
    rcases List.mem_cons.1 hit with h | hit2
    · subst h
      intro hkeq
      have := hinj 0 (M + 2) (by omega) (by omega) hkeq
      omega
    rcases List.mem_cons.1 hit2 with h | h
    · subst h
      intro hkeq
      have := hinj 1 (M + 2) (by omega) (by omega) hkeq
      omega
    · rw [htail] at h
      obtain ⟨i, hi, rfl⟩ := List.mem_map.1 h
      have hib := List.mem_range'_1.1 hi
      intro hkeq
      have := hinj i (M + 2) (by omega) (by omega) hkeq
      omega
  have hmax : maxSize c2.conf = ((M + 2 : ℕ) : ℚ) := by
    rw [show c2.conf = lruUnitConf (M + 2) from rfl]
    exact maxSize_lruUnitConf (M + 2)
  have hbig : intGtRat (c2.size + ((c2.conf.sizeFn (key (M + 2)) newV : ℕ) : ℤ))
      (maxSize c2.conf) = true := by
    have e : c2.size + ((c2.conf.sizeFn (key (M + 2)) newV : ℕ) : ℤ) =
        ((M + 2 : ℕ) : ℤ) + 1 := by
      show ((M + 2 : ℕ) : ℤ) + ((1 : ℕ) : ℤ) = ((M + 2 : ℕ) : ℤ) + 1
      norm_num
    rw [e, hmax]
    exact intGtRat_succ_nat (M + 2)
  have hsorted : List.Sorted (fun a b => c2.conf.policy a ≤ c2.conf.policy b)
      (f 1 :: tail) := by
    rw [List.sorted_cons]
    constructor
    · intro b hb
      rw [htail] at hb
      obtain ⟨i, hi, rfl⟩ := List.mem_map.1 hb
      have hib := List.mem_range'_1.1 hi
      show ((1 : ℕ) : ℤ) ≤ ((i : ℕ) : ℤ)
      omega
    · rw [htail]
      exact List.Pairwise.map f
        (fun a b hab => by
          show ((a : ℕ) : ℤ) ≤ ((b : ℕ) : ℤ)
          omega)
        (List.pairwise_lt_range' 2 M)
  have hbigpol : ∀ b ∈ f 1 :: tail, ¬(c2.conf.policy g0 ≤ c2.conf.policy b) := by
    intro b hb
    rcases List.mem_cons.1 hb with h | h
    · subst h
      show ¬(((M + 2 : ℕ) : ℤ) ≤ ((1 : ℕ) : ℤ))
      omega
    · rw [htail] at h
      obtain ⟨i, hi, rfl⟩ := List.mem_map.1 h
      have hib := List.mem_range'_1.1 hi
      show ¬(((M + 2 : ℕ) : ℤ) ≤ ((i : ℕ) : ℤ))
      omega
  have hsort : (sortItems c2).items = f 1 :: (tail ++ [g0]) := by
    rw [sortItems_eval hc2 hsorted hbigpol]
    rfl
  have hsel : selectVictims (maxSize c2.conf) c2.size
      (c2.conf.sizeFn (key (M + 2)) newV) (f 1 :: (tail ++ [g0])) = [key 1] := by
    have h2 : intGtRat (c2.size - (((f 1).stored_size : ℕ) : ℤ) +
        ((c2.conf.sizeFn (key (M + 2)) newV : ℕ) : ℤ)) (maxSize c2.conf) = false := by
      have e : c2.size - (((f 1).stored_size : ℕ) : ℤ) +
          ((c2.conf.sizeFn (key (M + 2)) newV : ℕ) : ℤ) = ((M + 2 : ℕ) : ℤ) := by
        show ((M + 2 : ℕ) : ℤ) - ((1 : ℕ) : ℤ) + ((1 : ℕ) : ℤ) = ((M + 2 : ℕ) : ℤ)
        norm_num
      rw [e, hmax]
      exact intGtRat_le_nat (le_refl (M + 2))
    exact selectVictims_head_only hbig h2
  have hrem : removeKeysLocal (sortItems c2) [key 1] =
      { sortItems c2 with items := tail ++ [g0], size := (sortItems c2).size - (((f 1).stored_size : ℕ) : ℤ) } :=
    removeKeysLocal_head hsort (show (f 1).key = key 1 from rfl)
  have hput : putLocal1 c2 (key (M + 2)) newV (M + 2 + 1) =
      { conf := lruUnitConf (M + 2),
        size := ((M + 2 : ℕ) : ℤ),
        items := (tail ++ [g0]) ++
          [{ key := key (M + 2), stored_value := newV, stored_size := 1,
             creation_time := 0, access_time := M + 2 + 1, access_count := 1 }] } := by
    unfold putLocal1
    rw [removeLocal_none hfindN]
    simp only [hbig, if_true]
    rw [hsort, hsel, hrem]
    have hsz : (sortItems c2).size - (((f 1).stored_size : ℕ) : ℤ) +
        ((c2.conf.sizeFn (key (M + 2)) newV : ℕ) : ℤ) = ((M + 2 : ℕ) : ℤ) := by
      show ((M + 2 : ℕ) : ℤ) - ((1 : ℕ) : ℤ) + ((1 : ℕ) : ℤ) = ((M + 2 : ℕ) : ℤ)
      norm_num
    simp only []
    rw [hsz]
    rfl
  rw [hput]
  refine ⟨_, _, rfl, ?_, ?_, ?_⟩
  · simp only [keysOf, Chain.head, htail, hg0, hf, List.map_append, List.map_map,
      List.map_cons, List.map_nil, Function.comp_def, Nat.add_sub_cancel,
      List.append_assoc, List.singleton_append, List.cons_append, List.nil_append]
  · intro hmem
    simp only [keysOf, Chain.head, htail, hg0, hf, List.map_append, List.map_map,
      List.map_cons, List.map_nil, Function.comp, List.mem_append, List.mem_map,
      List.mem_singleton, List.mem_cons, List.not_mem_nil, or_false] at hmem
    rcases hmem with (⟨i, hi, hkeq⟩ | h) | h
    · have hib := List.mem_range'_1.1 hi
      have := hinj i 1 (by omega) (by omega) hkeq
      omega
    · have := hinj 0 1 (by omega) (by omega) h.symm
      omega
    · have := hinj (M + 2) 1 (by omega) (by omega) h.symm
      omega
  · simp only [keysOf, Chain.head, htail, hg0, hf, List.map_append, List.map_map,
      List.map_cons, List.map_nil, Function.comp, List.mem_append, List.mem_map,
      List.mem_singleton, List.mem_cons]
    left
    right
    left
    trivial

/-- Witness for C5 at `N = 3` (the concrete S1 scenario: keys 0,1,2 inserted,
key 0 accessed, key 3 inserted; key 1 is evicted). -/
theorem lru_eviction_witness :
    (∀ i j : ℕ, i ≤ 3 → j ≤ 3 → (fun i : ℕ => i) i = (fun i : ℕ => i) j → i = j) ∧
    2 ≤ 3 ∧
    (∃ ch' cl', runOps (fun _ : ℕ => true)
        (lruScenarioOps (fun i : ℕ => i) (fun i : ℕ => i) 3 99)
        (initChain1 (lruUnitConf 3)) 0 = .ok (ch', cl') ∧
      keysOf (Chain.head ch') =
        ((List.range' 2 (3 - 2)).map (fun i : ℕ => i)) ++ [0, 3] ∧
      (1 : ℕ) ∉ keysOf (Chain.head ch') ∧ (0 : ℕ) ∈ keysOf (Chain.head ch')) :=
  ⟨fun _ _ _ _ h => h, by decide,
    lru_eviction (fun _ => true) (fun i : ℕ => i) (fun i : ℕ => i) 3 99
      (fun _ _ _ _ h => h) (by decide)⟩

/-- `tiersKeys` on a non-empty chain puts the head tier's keys first. -/
theorem tiersKeys_cons {n : ℕ} (c : CacheLocal K V) (rest : Chain K V n) :
    tiersKeys (.cons c rest) = keysOf c :: tiersKeys rest := rfl

/-- A key is resident somewhere in the chain iff it is resident in some
tier. -/
theorem mem_allKeys {n : ℕ} (ch : Chain K V n) (x : K) :
    x ∈ allKeys ch ↔ ∃ l ∈ tiersKeys ch, x ∈ l := by
  induction ch with
  | nil =>
    constructor
    · intro h
      exact absurd h (List.not_mem_nil x)
    · rintro ⟨l, hl, _⟩
      exact absurd hl (List.not_mem_nil l)
  | cons c rest ih =>
    show x ∈ keysOf c ++ allKeys rest ↔ _
    rw [List.mem_append, ih, tiersKeys_cons]
    constructor
    · rintro (h | ⟨l, hl, hx⟩)
      · exact ⟨keysOf c, List.mem_cons_self _ _, h⟩
      · exact ⟨l, List.mem_cons_of_mem _ hl, hx⟩
    · rintro ⟨l, hl, hx⟩
      rcases List.mem_cons.1 hl with h | h
      · exact Or.inl (h ▸ hx)
      · exact Or.inr ⟨l, h, hx⟩

/-- The empty chain trivially satisfies the key invariant. -/
theorem chainKeysWF_nil : chainKeysWF (.nil : Chain K V 0) :=
  ⟨fun l hl => absurd hl (List.not_mem_nil l), List.Pairwise.nil⟩

/-- Unfolding the key invariant over the head tier: head keys are duplicate
free, absent from the whole parent chain, and the parent chain is itself
well-formed. -/
theorem chainKeysWF_cons_iff {n : ℕ} {c : CacheLocal K V} {rest : Chain K V n} :
    chainKeysWF (.cons c rest) ↔
      (keysOf c).Nodup ∧ (∀ x ∈ keysOf c, x ∉ allKeys rest) ∧ chainKeysWF rest := by
  unfold chainKeysWF
  rw [tiersKeys_cons, List.pairwise_cons, List.forall_mem_cons]
  constructor
  · rintro ⟨⟨hnd, hnds⟩, hdisj, hpw⟩
    refine ⟨hnd, ?_, hnds, hpw⟩
    intro x hx hmem
    obtain ⟨l, hl, hxl⟩ := (mem_allKeys rest x).1 hmem
    exact hdisj l hl hx hxl
  · rintro ⟨hnd, hdis, hnds, hpw⟩
    refine ⟨⟨hnd, hnds⟩, ?_, hpw⟩
    intro l hl
    intro a ha hal
    exact hdis a ha ((mem_allKeys rest a).2 ⟨l, hl, hal⟩)

/-- Removing a key from a tier only removes resident keys. -/
theorem keysOf_removeLocal_subset (c : CacheLocal K V) (k : K) :
    ∀ x ∈ keysOf (removeLocal c k), x ∈ keysOf c := by
  intro x hx
  obtain ⟨it, hit, rfl⟩ := List.mem_map.1 hx
  exact List.mem_map.2 ⟨it, removeLocal_items_subset c k it hit, rfl⟩

/-- Duplicate-freedom of a tier's keys survives a local removal. -/
theorem nodup_keysOf_removeLocal {c : CacheLocal K V} (hnd : (keysOf c).Nodup)
    (k : K) : (keysOf (removeLocal c k)).Nodup := by
  unfold removeLocal
  cases findItem k c.items with
  | none => exact hnd
  | some it =>
    show ((eraseItem k c.items).map (·.key)).Nodup
    exact nodup_keys_eraseItem hnd

/-- `remove_value` acts tier-wise as `removeLocal`. -/
theorem toList_remove_value {n : ℕ} (ch : Chain K V n) (k : K) :
    (remove_value ch k).toList = ch.toList.map (fun c => removeLocal c k) := by
  induction ch with
  | nil => rfl
  | cons c rest ih =>
    show removeLocal c k :: (remove_value rest k).toList = _
    rw [ih]
    rfl

/-- `remove_value` never adds a resident key anywhere. -/
theorem mem_allKeys_remove_value_subset {n : ℕ} (ch : Chain K V n) (k x : K) :
    x ∈ allKeys (remove_value ch k) → x ∈ allKeys ch := by
  induction ch with
  | nil => exact fun h => h
  | cons c rest ih =>
    intro h
    have h' : x ∈ keysOf (removeLocal c k) ++ allKeys (remove_value rest k) := h
    show x ∈ keysOf c ++ allKeys rest
    rcases List.mem_append.1 h' with h'' | h''
    · exact List.mem_append.2 (Or.inl (keysOf_removeLocal_subset c k x h''))
    · exact List.mem_append.2 (Or.inr (ih h''))

/-- `remove_value` preserves the key invariant. -/
theorem chainKeysWF_remove_value {n : ℕ} {ch : Chain K V n}
    (h : chainKeysWF ch) (k : K) : chainKeysWF (remove_value ch k) := by
  induction ch with
  | nil => exact h
  | cons c rest ih =>
    rw [chainKeysWF_cons_iff] at h
    obtain ⟨hnd, hdis, hrest⟩ := h
    show chainKeysWF (.cons (removeLocal c k) (remove_value rest k))
    rw [chainKeysWF_cons_iff]
    refine ⟨nodup_keysOf_removeLocal hnd k, ?_, ih hrest⟩
    intro x hx hmem
    exact hdis x (keysOf_removeLocal_subset c k x hx)
      (mem_allKeys_remove_value_subset rest k x hmem)

/-- After `remove_value k`, the key `k` is resident nowhere (it is removed
from every tier; duplicate-freedom guarantees the single local erase
suffices). -/
theorem not_mem_allKeys_remove_value {n : ℕ} {ch : Chain K V n}
    (h : chainKeysWF ch) (k : K) : k ∉ allKeys (remove_value ch k) := by
  induction ch with
  | nil => exact List.not_mem_nil k
  | cons c rest ih =>
    rw [chainKeysWF_cons_iff] at h
    obtain ⟨hnd, hdis, hrest⟩ := h
    intro hmem
    have hmem' : k ∈ keysOf (removeLocal c k) ++ allKeys (remove_value rest k) := hmem
    rcases List.mem_append.1 hmem' with h' | h'
    · exact ((mem_keysOf_removeLocal hnd k k).1 h').2 rfl
    · exact ih hrest h'

/-- Two chains (of any lengths) with the same tier key sets satisfy the key
invariant together. -/
theorem chainKeysWF_of_tiersKeys_eq {n m : ℕ} {ch : Chain K V n}
    {ch' : Chain K V m} (h : tiersKeys ch' = tiersKeys ch)
    (hwf : chainKeysWF ch) : chainKeysWF ch' := by
  unfold chainKeysWF at hwf ⊢
  rw [h]
  exact hwf

/-- Same tier key sets give the same resident-key membership. -/
theorem mem_allKeys_of_tiersKeys_eq {n m : ℕ} {ch : Chain K V n}
    {ch' : Chain K V m} (h : tiersKeys ch' = tiersKeys ch) (x : K) :
    x ∈ allKeys ch' ↔ x ∈ allKeys ch := by
  rw [mem_allKeys, mem_allKeys, h]

/-- A completed (`ok`) `get_value` changes no tier's resident key set: a hit
only refreshes access bookkeeping, a miss changes nothing. -/
theorem tiersKeys_get_value {n : ℕ} (tr : V → Bool) :
    ∀ (ch : Chain K V n) (k : K) (cl : ℕ) (v? : Option V) (ch' : Chain K V n)
      (cl' : ℕ), get_value tr ch k cl = .ok (v?, ch', cl') →
      tiersKeys ch' = tiersKeys ch := by
  intro ch
  induction ch with
  | nil =>
    intro k cl v? ch' cl' h
    simp only [get_value, Except.ok.injEq, Prod.mk.injEq] at h
    obtain ⟨-, h2, -⟩ := h
    rw [← h2]
  | cons c rest ih =>
    cases rest with
    | nil =>
      intro k cl v? ch' cl' h
      rw [get_value_singleton] at h
      cases hf : findItem k c.items with
      | some it =>
        rw [hf] at h
        simp only [Except.ok.injEq, Prod.mk.injEq] at h
        obtain ⟨-, h2, -⟩ := h
        rw [← h2]
        show keysOf (restoreHit c k cl) :: tiersKeys (.nil : Chain K V 0) =
          keysOf c :: tiersKeys (.nil : Chain K V 0)
        rw [keysOf_restoreHit]
      | none =>
        rw [hf] at h
        simp only [Except.ok.injEq, Prod.mk.injEq] at h
        obtain ⟨-, h2, -⟩ := h
        rw [← h2]
    | cons p prest =>
      intro k cl v? ch' cl' h
      simp only [get_value] at h
      cases hf : findItem k c.items with
      | some it =>
        rw [hf] at h
        simp only [Except.ok.injEq, Prod.mk.injEq] at h
        obtain ⟨-, h2, -⟩ := h
        rw [← h2]
        show keysOf (restoreHit c k cl) :: tiersKeys (.cons p prest) =
          keysOf c :: tiersKeys (.cons p prest)
        rw [keysOf_restoreHit]
      | none =>
        rw [hf] at h
        cases hg : get_value tr (.cons p prest) k cl with
        | error e =>
          rw [hg] at h
          exact absurd h (by simp)
        | ok res =>
          obtain ⟨v2, rest', cl2⟩ := res
          rw [hg] at h
          simp only [] at h
          have hrest := ih k cl v2 rest' cl2 hg
          cases v2 with
          | none =>
            simp only [Except.ok.injEq, Prod.mk.injEq] at h
            obtain ⟨-, h2, -⟩ := h
            rw [← h2]
            show keysOf c :: tiersKeys rest' = keysOf c :: tiersKeys (.cons p prest)
            rw [hrest]
          | some v =>
            cases htr : tr v with
            | true =>
              simp only [htr, if_true] at h
              exact absurd h (by simp)
            | false =>
              simp only [htr, Bool.false_eq_true, if_false, Except.ok.injEq,
                Prod.mk.injEq] at h
              obtain ⟨-, h2, -⟩ := h
              rw [← h2]
              show keysOf c :: tiersKeys rest' = keysOf c :: tiersKeys (.cons p prest)
              rw [hrest]

/-- `get_value` answers `some` only on a hit in the head tier: the key is
locally resident.  (A parent-tier hit either raises or is reported as
`none`.) -/
theorem get_value_some_mem {n : ℕ} (tr : V → Bool) (c : CacheLocal K V)
    (rest : Chain K V n) (k : K) (cl : ℕ) (v : V) (ch' : Chain K V (n + 1))
    (cl' : ℕ) (h : get_value tr (.cons c rest) k cl = .ok (some v, ch', cl')) :
    k ∈ keysOf c := by
  cases rest with
  | nil =>
    rw [get_value_singleton] at h
    cases hf : findItem k c.items with
    | some it =>
      exact findItem_key hf ▸ List.mem_map.2 ⟨it, findItem_mem hf, rfl⟩
    | none =>
      rw [hf] at h
      simp at h
  | cons p prest =>
    simp only [get_value] at h
    cases hf : findItem k c.items with
    | some it =>
      exact findItem_key hf ▸ List.mem_map.2 ⟨it, findItem_mem hf, rfl⟩
    | none =>
      rw [hf] at h
      cases hg : get_value tr (.cons p prest) k cl with
      | error e =>
        rw [hg] at h
        exact absurd h (by simp)
      | ok res =>
        obtain ⟨v2, rest', cl2⟩ := res
        rw [hg] at h
        simp only [] at h
        cases v2 with
        | none => simp at h
        | some v3 =>
          cases htr : tr v3 with
          | true =>
            simp only [htr, if_true] at h
            exact absurd h (by simp)
          | false =>
            simp only [htr, Bool.false_eq_true, if_false] at h
            simp at h

/-- Sorting the head tier's item list permutes keys only, so the key
invariant survives. -/
theorem chainKeysWF_cons_sortItems {n : ℕ} {c : CacheLocal K V}
    {rest : Chain K V n} (h : chainKeysWF (.cons c rest)) :
    chainKeysWF (.cons (sortItems c) rest) := by
  rw [chainKeysWF_cons_iff] at h ⊢
  obtain ⟨hnd, hdis, hrest⟩ := h
  refine ⟨?_, ?_, hrest⟩
  · show ((sortItems c).items.map (·.key)).Nodup
    exact (((sortItems_perm c).map (fun it : Item K V => it.key)).nodup_iff).2 hnd
  · intro x hx
    exact hdis x ((mem_keysOf_sortItems c x).1 hx)

/-- Duplicate-freedom survives repeated local removals. -/
theorem nodup_keysOf_removeKeysLocal {c : CacheLocal K V}
    (hnd : (keysOf c).Nodup) (ks : List K) :
    (keysOf (removeKeysLocal c ks)).Nodup := by
  induction ks generalizing c with
  | nil => exact hnd
  | cons k ks ih => exact ih (nodup_keysOf_removeLocal hnd k)

/-- Repeated local removals only remove resident keys. -/
theorem keysOf_removeKeysLocal_subset (c : CacheLocal K V) (ks : List K) :
    ∀ x ∈ keysOf (removeKeysLocal c ks), x ∈ keysOf c := by
  intro x hx
  obtain ⟨it, hit, rfl⟩ := List.mem_map.1 hx
  exact List.mem_map.2 ⟨it, removeKeysLocal_items_subset c ks it hit, rfl⟩

/-- The eviction loop preserves the key invariant; the head tier only loses
keys, and the chain as a whole gains none (victims move between tiers). -/
theorem evictGo_spec {n : ℕ} (tr : V → Bool)
    (putP : Chain K V n → K → V → ℕ → Except Unit (Chain K V n × ℕ))
    (hP : PutSpec putP) :
    ∀ (ks : List K) (ch : Chain K V (n + 1)) (cl : ℕ)
      (ch' : Chain K V (n + 1)) (cl' : ℕ), chainKeysWF ch →
      evictGo tr putP ch ks cl = .ok (ch', cl') →
      chainKeysWF ch' ∧
      (∀ x ∈ keysOf (Chain.head ch'), x ∈ keysOf (Chain.head ch)) ∧
      (∀ x ∈ allKeys ch', x ∈ allKeys ch) := by
  intro ks
  induction ks with
  | nil =>
    intro ch cl ch' cl' hwf h
    simp only [evictGo, Except.ok.injEq, Prod.mk.injEq] at h
    obtain ⟨h1, -⟩ := h
    subst h1
    exact ⟨hwf, fun x hx => hx, fun x hx => hx⟩
  | cons k ks ih =>
    intro ch cl ch' cl' hwf h
    cases ch with
    | cons c rest =>
    cases n with
    | zero =>
      cases rest with
      | nil =>
        simp only [evictGo] at h
        obtain ⟨hwf', hhead, hall⟩ :=
          ih (remove_value (.cons c Chain.nil) k) cl ch' cl'
            (chainKeysWF_remove_value hwf k) h
        refine ⟨hwf', ?_, ?_⟩
        · intro x hx
          exact keysOf_removeLocal_subset c k x (hhead x hx)
        · intro x hx
          exact mem_allKeys_remove_value_subset _ k x (hall x hx)
    | succ m =>
      simp only [evictGo] at h
      cases hg : get_value tr (.cons c rest) k cl with
      | error e =>
        rw [hg] at h
        exact absurd h (by simp)
      | ok res =>
        obtain ⟨v?, ch1, cl1⟩ := res
        rw [hg] at h
        have htk : tiersKeys ch1 = tiersKeys (.cons c rest) :=
          tiersKeys_get_value tr _ k cl v? ch1 cl1 hg
        have hwf1 : chainKeysWF ch1 := chainKeysWF_of_tiersKeys_eq htk hwf
        cases ch1 with
        | cons c1 rest1 =>
        rw [tiersKeys_cons, tiersKeys_cons] at htk
        injection htk with hhd htl
        cases v? with
        | none =>
          simp only [] at h
          obtain ⟨hwf', hhead, hall⟩ :=
            ih (remove_value (.cons c1 rest1) k) cl1 ch' cl'
              (chainKeysWF_remove_value hwf1 k) h
          refine ⟨hwf', ?_, ?_⟩
          · intro x hx
            have := keysOf_removeLocal_subset c1 k x (hhead x hx)
            rw [hhd] at this
            exact this
          · intro x hx
            have h1 := mem_allKeys_remove_value_subset _ k x (hall x hx)
            have h2 : x ∈ allKeys (Chain.cons c1 rest1) := h1
            rw [mem_allKeys, tiersKeys_cons, hhd, htl, ← tiersKeys_cons,
              ← mem_allKeys] at h2
            exact h2
        | some v =>
          have hkmem : k ∈ keysOf c :=
            get_value_some_mem tr c rest k cl v _ cl1 hg
          cases htr : tr v with
          | false =>
            simp only [htr, Bool.false_eq_true, if_false] at h
            obtain ⟨hwf', hhead, hall⟩ :=
              ih (remove_value (.cons c1 rest1) k) cl1 ch' cl'
                (chainKeysWF_remove_value hwf1 k) h
            refine ⟨hwf', ?_, ?_⟩
            · intro x hx
              have := keysOf_removeLocal_subset c1 k x (hhead x hx)
              rw [hhd] at this
              exact this
            · intro x hx
              have h1 := mem_allKeys_remove_value_subset _ k x (hall x hx)
              have h2 : x ∈ allKeys (Chain.cons c1 rest1) := h1
              rw [mem_allKeys, tiersKeys_cons, hhd, htl, ← tiersKeys_cons,
                ← mem_allKeys] at h2
              exact h2
          | true =>
            simp only [htr, if_true, remove_value] at h
            cases hp : putP (remove_value rest1 k) k v cl1 with
            | error e =>
              rw [hp] at h
              exact absurd h (by simp)
            | ok res2 =>
              obtain ⟨rest3, cl2⟩ := res2
              rw [hp] at h
              simp only [] at h
              have hwf2 : chainKeysWF
                  (.cons (removeLocal c1 k) (remove_value rest1 k)) :=
                chainKeysWF_remove_value hwf1 k
              rw [chainKeysWF_cons_iff] at hwf2
              obtain ⟨hnd2, hdis2, hrest2⟩ := hwf2
              rw [chainKeysWF_cons_iff] at hwf1
              obtain ⟨hnd1, hdis1, hrest1wf⟩ := hwf1
              obtain ⟨hwfr3, hsub3⟩ :=
                hP (remove_value rest1 k) k v cl1 rest3 cl2 hrest2 hp
              have hwf3 : chainKeysWF (.cons (removeLocal c1 k) rest3) := by
                rw [chainKeysWF_cons_iff]
                refine ⟨hnd2, ?_, hwfr3⟩
                intro x hx hmem
                rcases hsub3 x hmem with h' | h'
                · exact hdis2 x hx h'
                · have := (mem_keysOf_removeLocal hnd1 k x).1 hx
                  exact this.2 h'
              obtain ⟨hwf', hhead, hall⟩ := ih _ cl2 ch' cl' hwf3 h
              refine ⟨hwf', ?_, ?_⟩
              · intro x hx
                have := keysOf_removeLocal_subset c1 k x (hhead x hx)
                rw [hhd] at this
                exact this
              · intro x hx
                have h1 := hall x hx
                have h2 : x ∈ keysOf (removeLocal c1 k) ++ allKeys rest3 := h1
                show x ∈ keysOf c ++ allKeys rest
                rcases List.mem_append.1 h2 with h' | h'
                · have := keysOf_removeLocal_subset c1 k x h'
                  rw [hhd] at this
                  exact List.mem_append.2 (Or.inl this)
                · rcases hsub3 x h' with h'' | h''
                  · have h3 := mem_allKeys_remove_value_subset rest1 k x h''
                    rw [mem_allKeys, htl, ← mem_allKeys] at h3
                    exact List.mem_append.2 (Or.inr h3)
                  · subst h''
                    exact List.mem_append.2 (Or.inl hkmem)

/-- `trim` (sort, select, evict) preserves the key invariant; the head tier
only loses keys and the chain gains none. -/
theorem trimGo_spec {n : ℕ} (tr : V → Bool)
    (putP : Chain K V n → K → V → ℕ → Except Unit (Chain K V n × ℕ))
    (hP : PutSpec putP) (ch : Chain K V (n + 1)) (extra cl : ℕ)
    (ch' : Chain K V (n + 1)) (cl' : ℕ) (hwf : chainKeysWF ch)
    (h : trimGo tr putP ch extra cl = .ok (ch', cl')) :
    chainKeysWF ch' ∧
    (∀ x ∈ keysOf (Chain.head ch'), x ∈ keysOf (Chain.head ch)) ∧
    (∀ x ∈ allKeys ch', x ∈ allKeys ch) := by
  cases ch with
  | cons c rest =>
  simp only [trimGo] at h
  obtain ⟨hwf', hhead, hall⟩ := evictGo_spec tr putP hP _ _ cl ch' cl'
    (chainKeysWF_cons_sortItems hwf) h
  refine ⟨hwf', ?_, ?_⟩
  · intro x hx
    exact (mem_keysOf_sortItems c x).1 (hhead x hx)
  · intro x hx
    have h1 : x ∈ keysOf (sortItems c) ++ allKeys rest := hall x hx
    show x ∈ keysOf c ++ allKeys rest
    rcases List.mem_append.1 h1 with h' | h'
    · exact List.mem_append.2 (Or.inl ((mem_keysOf_sortItems c x).1 h'))
    · exact List.mem_append.2 (Or.inr h')

/-- Appending a single stored item to a tier appends its key. -/
theorem keysOf_addItem (c : CacheLocal K V) (s : ℤ) (it : Item K V) :
    keysOf { c with size := s, items := c.items ++ [it] } = keysOf c ++ [it.key] := by
  show (c.items ++ [it]).map (·.key) = _
  rw [List.map_append]
  rfl

/-- `put_value` at the head of a chain (parameterised by a well-behaved
parent put) preserves the key invariant and introduces no key beyond the one
being put. -/
theorem putGo_spec {n : ℕ} (tr : V → Bool)
    (putP : Chain K V n → K → V → ℕ → Except Unit (Chain K V n × ℕ))
    (hP : PutSpec putP) (ch : Chain K V (n + 1)) (k : K) (v : V) (cl : ℕ)
    (ch' : Chain K V (n + 1)) (cl' : ℕ) (hwf : chainKeysWF ch)
    (h : putGo tr putP ch k v cl = .ok (ch', cl')) :
    chainKeysWF ch' ∧ ∀ x ∈ allKeys ch', x ∈ allKeys ch ∨ x = k := by
  cases ch with
  | cons c rest =>
  rw [chainKeysWF_cons_iff] at hwf
  obtain ⟨hnd, hdis, hrest⟩ := hwf
  simp only [putGo, mkStoredItem, Item.access] at h
  have hwf0 : chainKeysWF (.cons (removeLocal c k) (remove_value rest k)) := by
    rw [chainKeysWF_cons_iff]
    refine ⟨nodup_keysOf_removeLocal hnd k, ?_, chainKeysWF_remove_value hrest k⟩
    intro x hx hmem
    exact hdis x (keysOf_removeLocal_subset c k x hx)
      (mem_allKeys_remove_value_subset rest k x hmem)
  have hknotmem : k ∉ keysOf (removeLocal c k) := by
    intro hk
    exact ((mem_keysOf_removeLocal hnd k k).1 hk).2 rfl
  have hknotrest : k ∉ allKeys (remove_value rest k) :=
    not_mem_allKeys_remove_value hrest k
  cases hcond : intGtRat ((removeLocal c k).size + ((c.conf.sizeFn k v : ℕ) : ℤ))
      (maxSize c.conf) with
  | false =>
    rw [hcond] at h
    simp only [Bool.false_eq_true, if_false, Except.ok.injEq, Prod.mk.injEq] at h
    obtain ⟨h1, -⟩ := h
    subst h1
    constructor
    · rw [chainKeysWF_cons_iff, keysOf_addItem]
      refine ⟨?_, ?_, chainKeysWF_remove_value hrest k⟩
      · rw [List.nodup_append]
        exact ⟨nodup_keysOf_removeLocal hnd k, List.nodup_singleton _,
          fun x hx hk => hknotmem ((show x = k from List.mem_singleton.1 hk) ▸ hx)⟩
      · intro x hx hmem
        rcases List.mem_append.1 hx with h' | h'
        · exact hdis x (keysOf_removeLocal_subset c k x h')
            (mem_allKeys_remove_value_subset rest k x hmem)
        · exact hknotrest ((show x = k from List.mem_singleton.1 h') ▸ hmem)
    · intro x hx
      have h1 : x ∈ keysOf { removeLocal c k with
          size := (removeLocal c k).size + ((c.conf.sizeFn k v : ℕ) : ℤ),
          items := (removeLocal c k).items ++
            [{ key := k, stored_value := v, stored_size := c.conf.sizeFn k v,
               creation_time := 0, access_time := cl, access_count := 0 + 1 }] } ++
          allKeys (remove_value rest k) := hx
      rw [keysOf_addItem] at h1
      rcases List.mem_append.1 h1 with h' | h'
      · rcases List.mem_append.1 h' with h'' | h''
        · exact Or.inl (List.mem_append.2
            (Or.inl (keysOf_removeLocal_subset c k x h'')))
        · exact Or.inr (List.mem_singleton.1 h'')
      · exact Or.inl (List.mem_append.2
          (Or.inr (mem_allKeys_remove_value_subset rest k x h')))
  | true =>
    rw [hcond] at h
    simp only [if_true] at h
    cases htg : trimGo tr putP (.cons (removeLocal c k) (remove_value rest k))
        (c.conf.sizeFn k v) (cl + 1) with
    | error e =>
      rw [htg] at h
      exact absurd h (by simp)
    | ok res =>
      obtain ⟨chT, clock2⟩ := res
      cases chT with
      | cons c2 rest2 =>
      rw [htg] at h
      simp only [Except.ok.injEq, Prod.mk.injEq] at h
      obtain ⟨h1, -⟩ := h
      subst h1
      obtain ⟨hwfT, hheadT, hallT⟩ := trimGo_spec tr putP hP _ _ (cl + 1)
        _ clock2 hwf0 htg
      rw [chainKeysWF_cons_iff] at hwfT
      obtain ⟨hndT, hdisT, hrestT⟩ := hwfT
      have hc2sub : ∀ x ∈ keysOf c2, x ∈ keysOf (removeLocal c k) := hheadT
      have hknotc2 : k ∉ keysOf c2 := fun hk => hknotmem (hc2sub k hk)
      have hrest2sub : ∀ x ∈ allKeys rest2,
          x ∈ keysOf (removeLocal c k) ++ allKeys (remove_value rest k) := by
        intro x hx
        exact hallT x (List.mem_append.2 (Or.inr hx))
      have hknotrest2 : k ∉ allKeys rest2 := by
        intro hk
        rcases List.mem_append.1 (hrest2sub k hk) with h' | h'
        · exact hknotmem h'
        · exact hknotrest h'
      constructor
      · rw [chainKeysWF_cons_iff, keysOf_addItem]
        refine ⟨?_, ?_, hrestT⟩
        · rw [List.nodup_append]
          exact ⟨hndT, List.nodup_singleton _,
            fun x hx hk => hknotc2 ((show x = k from List.mem_singleton.1 hk) ▸ hx)⟩
        · intro x hx hmem
          rcases List.mem_append.1 hx with h' | h'
          · exact hdisT x h' hmem
          · exact hknotrest2 ((show x = k from List.mem_singleton.1 h') ▸ hmem)
      · intro x hx
        have h1 : x ∈ keysOf { c2 with
            size := c2.size + ((c.conf.sizeFn k v : ℕ) : ℤ),
            items := c2.items ++
              [{ key := k, stored_value := v, stored_size := c.conf.sizeFn k v,
                 creation_time := 0, access_time := cl, access_count := 0 + 1 }] } ++
            allKeys rest2 := hx
        rw [keysOf_addItem] at h1
        rcases List.mem_append.1 h1 with h' | h'
        · rcases List.mem_append.1 h' with h'' | h''
          · exact Or.inl (List.mem_append.2
              (Or.inl (keysOf_removeLocal_subset c k x (hc2sub x h''))))
          · exact Or.inr (List.mem_singleton.1 h'')
        · rcases List.mem_append.1 (hrest2sub x h') with h'' | h''
          · exact Or.inl (List.mem_append.2
              (Or.inl (keysOf_removeLocal_subset c k x h'')))
          · exact Or.inl (List.mem_append.2
              (Or.inr (mem_allKeys_remove_value_subset rest k x h'')))

/-- The real `put_value` satisfies the put contract at every chain length
(the `n = 0` tier is dead code and trivially conforms). -/
theorem put_value_spec (tr : V → Bool) :
    ∀ n : ℕ, PutSpec (fun (ch : Chain K V n) k v cl => put_value tr ch k v cl) := by
  intro n
  induction n with
  | zero =>
    intro ch k v cl ch' cl' hwf h
    simp only [put_value, Except.ok.injEq, Prod.mk.injEq] at h
    obtain ⟨h1, -⟩ := h
    subst h1
    exact ⟨chainKeysWF_nil, fun x hx => absurd hx (List.not_mem_nil x)⟩
  | succ m ih =>
    intro ch k v cl ch' cl' hwf h
    exact putGo_spec tr _ ih ch k v cl ch' cl' hwf h

/-- The per-key loop of `clear` preserves the key invariant; any resident
key afterwards was resident before or is one of the processed keys. -/
theorem clearKeys_spec {n : ℕ} (tr : V → Bool) (b : Bool) :
    ∀ (ks : List K) (ch : Chain K V (n + 1)) (cl : ℕ)
      (ch' : Chain K V (n + 1)) (cl' : ℕ), chainKeysWF ch →
      clearKeys tr b ch ks cl = .ok (ch', cl') →
      chainKeysWF ch' ∧ (∀ x ∈ allKeys ch', x ∈ allKeys ch ∨ x ∈ ks) := by
  intro ks
  induction ks with
  | nil =>
    intro ch cl ch' cl' hwf h
    simp only [clearKeys, Except.ok.injEq, Prod.mk.injEq] at h
    obtain ⟨h1, -⟩ := h
    subst h1
    exact ⟨hwf, fun x hx => Or.inl hx⟩
  | cons k ks ih =>
    intro ch cl ch' cl' hwf h
    cases ch with
    | cons c rest =>
    have hstep : ∀ (chm : Chain K V (n + 1)) (clm : ℕ),
        chainKeysWF chm →
        (∀ x ∈ allKeys chm, x ∈ allKeys (Chain.cons c rest) ∨ x = k) →
        clearKeys tr b chm ks clm = .ok (ch', cl') →
        chainKeysWF ch' ∧
          (∀ x ∈ allKeys ch', x ∈ allKeys (Chain.cons c rest) ∨ x ∈ k :: ks) := by
      intro chm clm hwfm hsubm hm
      obtain ⟨hwf', hsub⟩ := ih chm clm ch' cl' hwfm hm
      refine ⟨hwf', ?_⟩
      intro x hx
      rcases hsub x hx with h' | h'
      · rcases hsubm x h' with h'' | h''
        · exact Or.inl h''
        · exact Or.inr (h'' ▸ List.mem_cons_self k ks)
      · exact Or.inr (List.mem_cons_of_mem k h')
    cases n with
    | zero =>
      cases rest with
      | nil =>
        simp only [clearKeys] at h
        exact hstep _ cl (chainKeysWF_remove_value hwf k)
          (fun x hx =>
            Or.inl (mem_allKeys_remove_value_subset _ k x hx)) h
    | succ m =>
      cases b with
      | true =>
        simp only [clearKeys, if_true] at h
        exact hstep _ cl (chainKeysWF_remove_value hwf k)
          (fun x hx =>
            Or.inl (mem_allKeys_remove_value_subset _ k x hx)) h
      | false =>
        simp only [clearKeys, Bool.false_eq_true, if_false] at h
        cases hg : get_value tr (.cons c rest) k cl with
        | error e =>
          rw [hg] at h
          exact absurd h (by simp)
        | ok res =>
          obtain ⟨v?, ch1, cl1⟩ := res
          rw [hg] at h
          have htk : tiersKeys ch1 = tiersKeys (.cons c rest) :=
            tiersKeys_get_value tr _ k cl v? ch1 cl1 hg
          have hwf1 : chainKeysWF ch1 := chainKeysWF_of_tiersKeys_eq htk hwf
          cases ch1 with
          | cons c1 rest1 =>
          rw [tiersKeys_cons, tiersKeys_cons] at htk
          injection htk with hhd htl
          have hsubrm : ∀ x ∈ allKeys (remove_value (Chain.cons c1 rest1) k),
              x ∈ allKeys (Chain.cons c rest) ∨ x = k := by
            intro x hx
            have h1 := mem_allKeys_remove_value_subset _ k x hx
            have h2 : x ∈ allKeys (Chain.cons c1 rest1) := h1
            rw [mem_allKeys, tiersKeys_cons, hhd, htl, ← tiersKeys_cons,
              ← mem_allKeys] at h2
            exact Or.inl h2
          cases v? with
          | none =>
            simp only [] at h
            exact hstep _ cl1 (chainKeysWF_remove_value hwf1 k) hsubrm h
          | some v =>
            cases htr : tr v with
            | false =>
              simp only [htr, Bool.false_eq_true, if_false] at h
              exact hstep _ cl1 (chainKeysWF_remove_value hwf1 k) hsubrm h
            | true =>
              simp only [htr, if_true] at h
              cases hp : put_value tr rest1 k v cl1 with
              | error e =>
                rw [hp] at h
                exact absurd h (by simp)
              | ok res2 =>
                obtain ⟨rest2, cl2⟩ := res2
                rw [hp] at h
                simp only [remove_value] at h
                rw [chainKeysWF_cons_iff] at hwf1
                obtain ⟨hnd1, hdis1, hrest1⟩ := hwf1
                obtain ⟨hwfr2, hsubr2⟩ :=
                  put_value_spec tr _ rest1 k v cl1 rest2 cl2 hrest1 hp
                have hwfm : chainKeysWF
                    (.cons (removeLocal c1 k) (remove_value rest2 k)) := by
                  rw [chainKeysWF_cons_iff]
                  refine ⟨nodup_keysOf_removeLocal hnd1 k, ?_,
                    chainKeysWF_remove_value hwfr2 k⟩
                  intro x hx hmem
                  obtain ⟨hxc1, hxk⟩ := (mem_keysOf_removeLocal hnd1 k x).1 hx
                  rcases hsubr2 x (mem_allKeys_remove_value_subset rest2 k x hmem)
                      with h' | h'
                  · exact hdis1 x hxc1 h'
                  · exact hxk h'
                have hsubm : ∀ x ∈ allKeys
                    (Chain.cons (removeLocal c1 k) (remove_value rest2 k)),
                    x ∈ allKeys (Chain.cons c rest) ∨ x = k := by
                  intro x hx
                  have h1 : x ∈ keysOf (removeLocal c1 k) ++
                      allKeys (remove_value rest2 k) := hx
                  rcases List.mem_append.1 h1 with h' | h'
                  · have := keysOf_removeLocal_subset c1 k x h'
                    rw [hhd] at this
                    exact Or.inl (List.mem_append.2 (Or.inl this))
                  · rcases hsubr2 x
                        (mem_allKeys_remove_value_subset rest2 k x h') with h'' | h''
                    · have h3 : x ∈ allKeys rest1 := h''
                      rw [mem_allKeys, htl, ← mem_allKeys] at h3
                      exact Or.inl (List.mem_append.2 (Or.inr h3))
                    · exact Or.inr h''
                exact hstep _ cl2 hwfm hsubm h

/-- `clear` preserves the key invariant and never adds a resident key. -/
theorem clear_spec {n : ℕ} (tr : V → Bool) :
    ∀ (ch : Chain K V n) (b : Bool) (cl : ℕ) (ch' : Chain K V n) (cl' : ℕ),
      chainKeysWF ch → clear tr ch b cl = .ok (ch', cl') →
      chainKeysWF ch' ∧ (∀ x ∈ allKeys ch', x ∈ allKeys ch) := by
  intro ch
  induction ch with
  | nil =>
    intro b cl ch' cl' hwf h
    simp only [clear, Except.ok.injEq, Prod.mk.injEq] at h
    obtain ⟨h1, -⟩ := h
    subst h1
    exact ⟨chainKeysWF_nil, fun x hx => hx⟩
  | cons c rest ih =>
    intro b cl ch' cl' hwf h
    cases rest with
    | nil =>
      simp only [clear] at h
      obtain ⟨hwf', hsub⟩ := clearKeys_spec tr b _ _ cl ch' cl' hwf h
      refine ⟨hwf', ?_⟩
      intro x hx
      rcases hsub x hx with h' | h'
      · exact h'
      · show x ∈ keysOf c ++ allKeys (Chain.nil : Chain K V 0)
        exact List.mem_append.2 (Or.inl h')
    | cons p prest =>
      cases b with
      | false =>
        simp only [clear, Bool.false_eq_true, if_false] at h
        obtain ⟨hwf', hsub⟩ := clearKeys_spec tr false _ _ cl ch' cl' hwf h
        refine ⟨hwf', ?_⟩
        intro x hx
        rcases hsub x hx with h' | h'
        · exact h'
        · exact List.mem_append.2 (Or.inl h')
      | true =>
        simp only [clear, if_true] at h
        cases hc : clear tr (.cons p prest) true cl with
        | error e =>
          rw [hc] at h
          exact absurd h (by simp)
        | ok res =>
          obtain ⟨rest', cl2⟩ := res
          rw [hc] at h
          simp only [] at h
          rw [chainKeysWF_cons_iff] at hwf
          obtain ⟨hnd, hdis, hrest⟩ := hwf
          obtain ⟨hwfR, hsubR⟩ := ih true cl rest' cl2 hrest hc
          have hwfm : chainKeysWF (.cons c rest') := by
            rw [chainKeysWF_cons_iff]
            exact ⟨hnd, fun x hx hmem => hdis x hx (hsubR x hmem), hwfR⟩
          obtain ⟨hwf', hsub⟩ := clearKeys_spec tr true _ _ cl2 ch' cl' hwfm h
          refine ⟨hwf', ?_⟩
          intro x hx
          rcases hsub x hx with h' | h'
          · have h1 : x ∈ keysOf c ++ allKeys rest' := h'
            show x ∈ keysOf c ++ allKeys (Chain.cons p prest)
            rcases List.mem_append.1 h1 with h'' | h''
            · exact List.mem_append.2 (Or.inl h'')
            · exact List.mem_append.2 (Or.inr (hsubR x h''))
          · exact List.mem_append.2 (Or.inl h')

/-- Every completed public operation preserves the key invariant. -/
theorem runOp_spec {n : ℕ} (tr : V → Bool) (op : Op K V) (ch : Chain K V n)
    (cl : ℕ) (ch' : Chain K V n) (cl' : ℕ) (hwf : chainKeysWF ch)
    (h : runOp tr op ch cl = .ok (ch', cl')) : chainKeysWF ch' := by
  cases op with
  | put k v => exact (put_value_spec tr n ch k v cl ch' cl' hwf h).1
  | remove k =>
    simp only [runOp, Except.ok.injEq, Prod.mk.injEq] at h
    obtain ⟨h1, -⟩ := h
    subst h1
    exact chainKeysWF_remove_value hwf k
  | get k =>
    simp only [runOp] at h
    cases hg : get_value tr ch k cl with
    | error e =>
      rw [hg] at h
      exact absurd h (by simp)
    | ok res =>
      obtain ⟨v?, ch1, cl1⟩ := res
      rw [hg] at h
      simp only [Except.ok.injEq, Prod.mk.injEq] at h
      obtain ⟨h1, -⟩ := h
      subst h1
      exact chainKeysWF_of_tiersKeys_eq
        (tiersKeys_get_value tr ch k cl v? ch1 cl1 hg) hwf
  | trimBy extra =>
    cases n with
    | zero =>
      simp only [runOp, trim, Except.ok.injEq, Prod.mk.injEq] at h
      obtain ⟨h1, -⟩ := h
      subst h1
      exact chainKeysWF_nil
    | succ m =>
      simp only [runOp, trim] at h
      exact (trimGo_spec tr _ (put_value_spec tr m) ch extra cl ch' cl' hwf h).1
  | clearWith b => exact (clear_spec tr ch b cl ch' cl' hwf h).1

/-- A completed sequence of public operations preserves the key invariant. -/
theorem runOps_spec {n : ℕ} (tr : V → Bool) :
    ∀ (ops : List (Op K V)) (ch : Chain K V n) (cl : ℕ) (ch' : Chain K V n)
      (cl' : ℕ), chainKeysWF ch → runOps tr ops ch cl = .ok (ch', cl') →
      chainKeysWF ch' := by
  intro ops
  induction ops with
  | nil =>
    intro ch cl ch' cl' hwf h
    simp only [runOps, Except.ok.injEq, Prod.mk.injEq] at h
    obtain ⟨h1, -⟩ := h
    subst h1
    exact hwf
  | cons op ops ih =>
    intro ch cl ch' cl' hwf h
    simp only [runOps] at h
    cases ho : runOp tr op ch cl with
    | error e =>
      rw [ho] at h
      exact absurd h (by simp)
    | ok res =>
      obtain ⟨ch1, cl1⟩ := res
      rw [ho] at h
      simp only [] at h
      exact ih ch1 cl1 ch' cl' (runOp_spec tr op ch cl ch1 cl1 hwf ho) h

/-- A freshly constructed two-tier cache satisfies the key invariant. -/
theorem chainKeysWF_initChain2 (confC confP : Config K V) :
    chainKeysWF (initChain2 confC confP) := by
  constructor
  · intro l hl
    have hl' : l ∈ [([] : List K), []] := hl
    rcases List.mem_cons.1 hl' with h | h
    · subst h
      exact List.nodup_nil
    · rcases List.mem_cons.1 h with h' | h'
      · subst h'
        exact List.nodup_nil
      · exact absurd h' (List.not_mem_nil l)
  · show List.Pairwise List.Disjoint [([] : List K), []]
    exact List.pairwise_cons.2
      ⟨fun l _ a ha => absurd ha (List.not_mem_nil a),
        List.pairwise_cons.2
          ⟨fun l _ a ha => absurd ha (List.not_mem_nil a), List.Pairwise.nil⟩⟩

/-- C2.  For every cache C constructed with a parent cache P, after every
completed sequence of public operations (put_value, remove_value, get_value,
trim, clear) starting from fresh caches, no key is resident in both C and P
at the same time: `put_value` first removes the key from the parent chain,
`remove_value` removes it from every tier, and `trim`/`clear` remove a
victim everywhere before promoting it into the parent. -/
theorem no_key_in_both_tiers (tr : V → Bool) (confC confP : Config K V)
    (ops : List (Op K V)) (ch' : Chain K V 2) (cl' : ℕ)
    (h : runOps tr ops (initChain2 confC confP) 0 = .ok (ch', cl')) :
    ∀ k : K, ¬(k ∈ keysOf (Chain.head ch') ∧
      k ∈ keysOf (Chain.head (Chain.tail ch'))) := by
  have hwf' := runOps_spec tr ops _ 0 ch' cl'
    (chainKeysWF_initChain2 confC confP) h
  cases ch' with
  | cons c1 rest =>
  cases rest with
  | cons c2 rest2 =>
  cases rest2 with
  | nil =>
  rw [chainKeysWF_cons_iff] at hwf'
  obtain ⟨-, hdis, -⟩ := hwf'
  intro k hk
  exact hdis k hk.1
    (show k ∈ keysOf c2 ++ allKeys (Chain.nil : Chain K V 0) from
      List.mem_append.2 (Or.inl hk.2))

/-- Witness for C2: child capacity 2 over parent capacity 4 (unit sizes,
LRU); puts of a, b, c fill the child and promote the LRU victim `a` into the
parent — afterwards `a` is resident only in the parent and `b`, `c` only in
the child, so no key is in both tiers. -/
theorem no_key_in_both_tiers_witness :
    (runOps natTruthy [Op.put "a" 1, Op.put "b" 2, Op.put "c" 3]
        (initChain2 (unitLRU 2 1) (unitLRU 4 1)) 0 =
      .ok (.cons (⟨unitLRU 2 1, 2,
            [⟨"b", 2, 1, 0, 1, 1⟩, ⟨"c", 3, 1, 0, 2, 1⟩]⟩ : CacheLocal String ℕ)
          (.cons (⟨unitLRU 4 1, 1, [⟨"a", 1, 1, 0, 4, 1⟩]⟩ : CacheLocal String ℕ)
            .nil), 5)) ∧
    ∀ k : String,
      ¬(k ∈ keysOf (Chain.head (Chain.cons (⟨unitLRU 2 1, 2,
            [⟨"b", 2, 1, 0, 1, 1⟩, ⟨"c", 3, 1, 0, 2, 1⟩]⟩ : CacheLocal String ℕ)
          (Chain.cons (⟨unitLRU 4 1, 1, [⟨"a", 1, 1, 0, 4, 1⟩]⟩ : CacheLocal String ℕ)
            Chain.nil))) ∧
        k ∈ keysOf (Chain.head (Chain.tail (Chain.cons (⟨unitLRU 2 1, 2,
            [⟨"b", 2, 1, 0, 1, 1⟩, ⟨"c", 3, 1, 0, 2, 1⟩]⟩ : CacheLocal String ℕ)
          (Chain.cons (⟨unitLRU 4 1, 1, [⟨"a", 1, 1, 0, 4, 1⟩]⟩ : CacheLocal String ℕ)
            Chain.nil))))) :=
  ⟨rfl, no_key_in_both_tiers natTruthy (unitLRU 2 1) (unitLRU 4 1)
    [Op.put "a" 1, Op.put "b" 2, Op.put "c" 3] _ 5 rfl⟩
